import Mathlib

/-!
# ncdc `util.c`: base32 codec and transfer-rate calculator

A shallow embedding of `base32_encode`, `base32_decode` and the `ratecalc_*`
macros of `src/util.c`, followed by theorems about them.

Conventions of the embedding.

* A C `int` of the codec (`value`) is kept as its 32-bit two's-complement bit
  pattern, a natural number below `2 ^ 32`; `shl32`, `sar32` are `<<` and the
  sign-propagating `>>` on such patterns, `|||` and `&&&` are `|` and `&`.
* The `int` fields of `struct ratecalc` are kept as signed values (`Int`) and
  every arithmetic result is brought back into the `int` range by `wrapInt`.
* A `char *` buffer that is read is a list; a buffer that is written through
  `to[idx++] = ...` is the list of the values stored, in the order of `idx`.
* A `struct ratecalc *` is an address (`Nat`); memory maps addresses to structs.
-/

namespace Ncdc

/-! ## Machine integers -/

/-- Left shift of a 32-bit pattern: `v << k`, bits shifted out are lost. -/
def shl32 (v k : Nat) : Nat := (v <<< k) % 2 ^ 32

/-- Right shift of a signed 32-bit pattern: `v >> k` for `int v`, the sign bit is
copied into the vacated positions. -/
def sar32 (v k : Nat) : Nat :=
  if v < 2 ^ 31 then v >>> k else (v >>> k) + (2 ^ 32 - 2 ^ (32 - k))

/-- The 32-bit pattern of a signed value (conversion of an `int` expression). -/
def toBits32 (x : Int) : Nat := (x % 2 ^ 32).toNat

/-- Reduction of a mathematical integer into the range of a C `int`
(`-2^31 .. 2^31 - 1`), as two's-complement arithmetic does. -/
def wrapInt (x : Int) : Int := (x + 2 ^ 31) % 2 ^ 32 - 2 ^ 31

/-! ## Base32 -/

/-- The table `static char alphabet[]` of `base32_encode`. -/
def alphabet : List Char := "ABCDEFGHIJKLMNOPQRSTUVWXYZ234567".toList

/-- Table lookup `alphabet[i]`; every index the encoder uses is masked with `0x1F`. -/
def alphabetAt (i : Nat) : Char := alphabet.getD i 'A'

/-- The inner loop of `base32_encode`:
`while(bits > 5) { to[idx++] = alphabet[(value >> (bits-5)) & 0x1F]; bits -= 5; }`.
The first argument bounds the number of iterations; `bits` itself is always enough. -/
def encodeWhile : Nat → Nat → Nat → List Char → Nat × List Char
  | 0, _, bits, dst => (bits, dst)
  | fuel + 1, value, bits, dst =>
    if bits > 5 then
      encodeWhile fuel value (bits - 5) (dst ++ [alphabetAt (sar32 value (bits - 5) &&& 0x1F)])
    else (bits, dst)

/-- The `for` loop of `base32_encode` over the bytes still to be read, threading
`value`, `bits` and the characters written so far. -/
def encodeFor : List Nat → Nat → Nat → List Char → Nat × Nat × List Char
  | [], value, bits, dst => (value, bits, dst)
  | b :: rest, value, bits, dst =>
    let value1 := shl32 value 8 ||| (b % 256)
    let r := encodeWhile (bits + 8) value1 (bits + 8) dst
    encodeFor rest value1 r.1 r.2

/-- Embedding of `void base32_encode(const char *from, char *to)`: reads `from[0..23]`
(as unsigned bytes) and returns the characters written to `to`. -/
def base32_encode (frm : List Nat) : List Char :=
  let r := encodeFor (frm.take 24) 0 0 []
  if r.2.1 > 0 then r.2.2 ++ [alphabetAt (shl32 r.1 (5 - r.2.1) &&& 0x1F)] else r.2.2

/-- The value `base32_decode` gives a character (an ASCII one, by its code):
`from[i] <= '9' ? (26+(from[i]-'2')) : from[i]-'A'`, an `int`. -/
def decodeDigit (c : Char) : Int :=
  if c.toNat ≤ '9'.toNat then 26 + ((c.toNat : Int) - ('2'.toNat : Int))
  else (c.toNat : Int) - ('A'.toNat : Int)

/-- The inner loop of `base32_decode`:
`while(bits > 8) { to[idx++] = (value >> (bits-8)) & 0xFF; bits -= 8; }`. -/
def decodeWhile : Nat → Nat → Nat → List Nat → Nat × List Nat
  | 0, _, bits, dst => (bits, dst)
  | fuel + 1, value, bits, dst =>
    if bits > 8 then
      decodeWhile fuel value (bits - 8) (dst ++ [sar32 value (bits - 8) &&& 0xFF])
    else (bits, dst)

/-- The `for` loop of `base32_decode` over the characters still to be read. -/
def decodeFor : List Char → Nat → Nat → List Nat → Nat × Nat × List Nat
  | [], value, bits, dst => (value, bits, dst)
  | c :: rest, value, bits, dst =>
    let value1 := shl32 value 5 ||| toBits32 (decodeDigit c)
    let r := decodeWhile (bits + 5) value1 (bits + 5) dst
    decodeFor rest value1 r.1 r.2

/-- Embedding of `void base32_decode(const char *from, char *to)`: reads `from[0..38]`
and returns the bytes written to `to` (each as its unsigned value). -/
def base32_decode (frm : List Char) : List Nat :=
  (decodeFor (frm.take 39) 0 0 []).2.2

/-- The number written by a list of digits in base `base`, most significant first. -/
def beNat (base : Nat) (l : List Nat) : Nat := l.foldl (fun n d => n * base + d) 0

/-- State of the encoder between two input bytes: `len` bytes with big-endian value `n`
have been read, the digits `ds` (as alphabet indices) are written, `bits` low bits of
`n` are still pending. -/
def EncInv (n len bits : Nat) (ds : List Nat) : Prop :=
  bits ≤ 5 ∧ 8 * len = 5 * ds.length + bits ∧ beNat 32 ds = n / 2 ^ bits ∧ ∀ d ∈ ds, d < 32

/-- State of the decoder between two input characters: `len` digits with big-endian
value `m` have been read, the bytes `bs` are written, `bits` low bits are pending. -/
def DecInv (m len bits : Nat) (bs : List Nat) : Prop :=
  bits ≤ 8 ∧ 5 * len = 8 * bs.length + bits ∧ beNat 256 bs = m / 2 ^ bits ∧ ∀ b ∈ bs, b < 256

/-! ## Rate calculator -/

/-- Embedding of `struct ratecalc { int counter; int rate; char isreg; }`. -/
structure ratecalc where
  counter : Int
  rate : Int
  isreg : Int
deriving DecidableEq

/-- The memory holding the `struct ratecalc` objects (indexed by address) together
with the global `GSList *ratecalc_list`, the list of the registered addresses. -/
structure State where
  mem : Nat → ratecalc
  ratecalc_list : List Nat

/-- Store `v` at address `rc`. -/
def store (mem : Nat → ratecalc) (rc : Nat) (v : ratecalc) : Nat → ratecalc :=
  fun p => if p = rc then v else mem p

/-- GLib `g_slist_prepend`: a new first node. -/
def g_slist_prepend (l : List Nat) (rc : Nat) : List Nat := rc :: l

/-- GLib `g_slist_remove`: unlinks the first node whose data is `rc`, if there is one. -/
def g_slist_remove : List Nat → Nat → List Nat
  | [], _ => []
  | x :: l, rc => if x = rc then l else x :: g_slist_remove l rc

/-- `ratecalc_add(rc, b)`: `g_atomic_int_add(&((rc)->counter), b)`. -/
def ratecalc_add (s : State) (rc : Nat) (b : Int) : State :=
  { s with mem := store s.mem rc { s.mem rc with counter := wrapInt ((s.mem rc).counter + b) } }

/-- `ratecalc_reset(rc)`: `g_atomic_int_set(&((rc)->counter), 0); (rc)->rate = 0;`. -/
def ratecalc_reset (s : State) (rc : Nat) : State :=
  { s with mem := store s.mem rc { s.mem rc with counter := 0, rate := 0 } }

/-- `ratecalc_unregister(rc)`:
`ratecalc_list = g_slist_remove(ratecalc_list, rc); (rc)->isreg = 0;`. -/
def ratecalc_unregister (s : State) (rc : Nat) : State :=
  { mem := store s.mem rc { s.mem rc with isreg := 0 },
    ratecalc_list := g_slist_remove s.ratecalc_list rc }

/-- `ratecalc_init(rc)`: `ratecalc_unregister(rc); ratecalc_reset(rc);`. -/
def ratecalc_init (s : State) (rc : Nat) : State :=
  ratecalc_reset (ratecalc_unregister s rc) rc

/-- `ratecalc_register(rc)`: `if(!(rc)->isreg) { ratecalc_list =
g_slist_prepend(ratecalc_list, rc); (rc)->isreg = 1; }`. -/
def ratecalc_register (s : State) (rc : Nat) : State :=
  if (s.mem rc).isreg = 0 then
    { mem := store s.mem rc { s.mem rc with isreg := 1 },
      ratecalc_list := g_slist_prepend s.ratecalc_list rc }
  else s

/-- `ratecalc_get(rc)`: `((rc)->rate)`. -/
def ratecalc_get (s : State) (rc : Nat) : Int := (s.mem rc).rate

/-- The smoothing expression `cur + ((rc->rate - cur) / 2)` on `int`s; C division
truncates toward zero (`Int.tdiv`). -/
def smooth (rate cur : Int) : Int :=
  wrapInt (cur + wrapInt ((wrapInt (rate - cur)).tdiv 2))

/-- One iteration of the list walk of `ratecalc_calc` for the node holding `rc`, run
without interference: the get/compare-and-exchange loop reads `cur`, stores 0 at the
first attempt, then `rc->rate = cur + ((rc->rate - cur) / 2)`. -/
def calc_node (mem : Nat → ratecalc) (rc : Nat) : Nat → ratecalc :=
  let cur := (mem rc).counter
  store mem rc { mem rc with counter := 0, rate := smooth (mem rc).rate cur }

/-- `ratecalc_calc()`: `for(n=ratecalc_list; n; n=n->next)` over the nodes in list order. -/
def ratecalc_calc (s : State) : State :=
  { s with mem := s.ratecalc_list.foldl calc_node s.mem }

/-- The calls a client of the rate calculator can make; `tick` is `ratecalc_calc()`. -/
inductive Op where
  | init (rc : Nat)
  | register (rc : Nat)
  | unregister (rc : Nat)
  | add (rc : Nat) (b : Int)
  | reset (rc : Nat)
  | tick
deriving DecidableEq

/-- Effect of one call on the state. -/
def step (s : State) : Op → State
  | .init rc => ratecalc_init s rc
  | .register rc => ratecalc_register s rc
  | .unregister rc => ratecalc_unregister s rc
  | .add rc b => ratecalc_add s rc b
  | .reset rc => ratecalc_reset s rc
  | .tick => ratecalc_calc s

/-- Effect of a sequence of calls. -/
def run (s : State) (ops : List Op) : State := ops.foldl step s

/-- The program start: `ratecalc_list = NULL`, memory content arbitrary. -/
def start (mem : Nat → ratecalc) : State := { mem := mem, ratecalc_list := [] }

/-- Memory in which every struct is zeroed. -/
def zeroMem : Nat → ratecalc := fun _ => ⟨0, 0, 0⟩

/-- A state the calls can produce from the empty registry. -/
def Reachable (s : State) : Prop := ∃ mem ops, s = run (start mem) ops

/-- Every call of `ops` other than `ratecalc_init` and `ratecalc_calc` is on an entity
of `known` or on one that an earlier `ratecalc_init` of `ops` has initialised. -/
def initFirst : List Nat → List Op → Bool
  | _, [] => true
  | known, .init rc :: ops => initFirst (rc :: known) ops
  | known, .tick :: ops => initFirst known ops
  | known, .register rc :: ops => decide (rc ∈ known) && initFirst known ops
  | known, .unregister rc :: ops => decide (rc ∈ known) && initFirst known ops
  | known, .add rc _ :: ops => decide (rc ∈ known) && initFirst known ops
  | known, .reset rc :: ops => decide (rc ∈ known) && initFirst known ops

/-- The entities that `ops` initialises with `ratecalc_init`. -/
def initialised : List Op → List Nat
  | [] => []
  | .init rc :: ops => rc :: initialised ops
  | _ :: ops => initialised ops

/-- The registration invariant for the entities of `known`: `ratecalc_list` holds no
address twice and only addresses of `known`, and each entity of `known` is either in the
list with `isreg` 1 or outside it with `isreg` 0. -/
def RegInv (known : List Nat) (s : State) : Prop :=
  s.ratecalc_list.Nodup ∧ (∀ e ∈ s.ratecalc_list, e ∈ known) ∧
    ∀ e ∈ known, (e ∈ s.ratecalc_list ∧ (s.mem e).isreg = 1) ∨
      (e ∉ s.ratecalc_list ∧ (s.mem e).isreg = 0)

/-! ### Interleaving model of one counter -/

/-- Where the coordinator stands in its retry loop
`do { cur = g_atomic_int_get(..); } while(!g_atomic_int_compare_and_exchange(.., cur, 0));`. -/
inductive Pc where
  | get
  | cas
deriving DecidableEq

/-- One entity's counter shared by the producers and the coordinator: the counter,
the coordinator's local `cur` and position, and the values of `cur` at the successful
exchanges so far (the deltas, oldest first). -/
structure Shared where
  counter : Int
  cur : Int
  pc : Pc
  deltas : List Int
deriving DecidableEq

/-- An atomic action: a producer's `g_atomic_int_add(&counter, b)`, or the next atomic
action of the coordinator. -/
inductive Act where
  | add (b : Int)
  | coord
deriving DecidableEq

/-- Effect of one atomic action. The coordinator at `get` reads the counter into `cur`;
at `cas` it stores 0 and leaves the loop with delta `cur` when the counter still
equals `cur`, and goes back to `get` otherwise. After leaving the loop its next
action on this counter is the `get` of the next tick. -/
def act (s : Shared) : Act → Shared
  | .add b => { s with counter := wrapInt (s.counter + b) }
  | .coord =>
    match s.pc with
    | .get => { s with cur := s.counter, pc := .cas }
    | .cas =>
      if s.counter = s.cur then { s with counter := 0, pc := .get, deltas := s.deltas ++ [s.cur] }
      else { s with pc := .get }

/-- Effect of an interleaving of atomic actions. -/
def interleave (s : Shared) (sched : List Act) : Shared := sched.foldl act s

/-- No `g_atomic_int_add` of the schedule run from `s` leaves the range of `int`: each
finds `counter + b` below `2 ^ 31`. -/
def noOverflow : Shared → List Act → Bool
  | _, [] => true
  | s, .add b :: sched => decide (s.counter + b < 2 ^ 31) && noOverflow (act s (.add b)) sched
  | s, .coord :: sched => noOverflow (act s .coord) sched

/-- The counter of a reset entity before any action. -/
def Shared.fresh : Shared := { counter := 0, cur := 0, pc := .get, deltas := [] }

/-- The amounts of the adds of a schedule. -/
def amounts : List Act → List Int
  | [] => []
  | .add b :: sched => b :: amounts sched
  | .coord :: sched => amounts sched

/-! ### Sequences of calls seen from one entity -/

/-- Every `ratecalc_add(rc, b)` of `ops`, run from `s`, adds a non-negative amount and
finds `counter + b` below `2 ^ 31`: the counter of `rc` never wraps. -/
def addsFit (rc : Nat) : State → List Op → Bool
  | _, [] => true
  | s, .add e b :: ops =>
    (decide (e ≠ rc) || (decide (0 ≤ b) && decide ((s.mem rc).counter + b < 2 ^ 31))) &&
      addsFit rc (step s (.add e b)) ops
  | s, op :: ops => addsFit rc (step s op) ops

/-- The deltas that the ticks of `ops`, run from `s`, read from the counter of `rc`
(a tick reads it when `rc` is registered), oldest first. -/
def sampled (rc : Nat) : State → List Op → List Int
  | _, [] => []
  | s, .tick :: ops =>
    if rc ∈ s.ratecalc_list then (s.mem rc).counter :: sampled rc (step s .tick) ops
    else sampled rc (step s .tick) ops
  | s, op :: ops => sampled rc (step s op) ops

/-- The largest of the deltas, 0 when there is none yet. -/
def largest (deltas : List Int) : Int := deltas.foldl max 0

/-- The state after `n` ticks each of which samples the delta `d` of `rc`:
`n` times `ratecalc_add(rc, d); ratecalc_calc();`. -/
def ticksWith (rc : Nat) (d : Int) : Nat → State → State
  | 0, s => s
  | n + 1, s => ratecalc_calc (ratecalc_add (ticksWith rc d n s) rc d)

/-! ## Strings -/

/-- Case folding of one byte as `g_strncasecmp` does it for ASCII: `A`..`Z` to `a`..`z`. -/
def asciiLower (c : Nat) : Nat := if 65 ≤ c ∧ c ≤ 90 then c + 32 else c

/-- GLib `g_strncasecmp(s1, s2, n)` on two NUL-terminated strings, each given by its
bytes before the NUL: compares at most `n` bytes ignoring ASCII case and returns 0 on
equality, the difference of the first differing pair otherwise. The count `n` is the
value of the `guint` parameter, so a caller that has a wider count reduces it modulo
`2 ^ 32` before the call. -/
def g_strncasecmp : List Nat → List Nat → Nat → Int
  | _, _, 0 => 0
  | [], s2, _ + 1 => 0 - (s2.headD 0 : Nat)
  | c1 :: _, [], _ + 1 => (c1 : Int)
  | c1 :: s1, c2 :: s2, n + 1 =>
    if asciiLower c1 ≠ asciiLower c2 then (asciiLower c1 : Int) - (asciiLower c2 : Int)
    else g_strncasecmp s1 s2 n

/-- What `str_casestr` returns: a pointer into `haystack` (as an offset) or `NULL`;
`fault` stands for a call that would read behind the terminating NUL of `haystack`. -/
inductive Found where
  | ptr (off : Nat)
  | null
  | fault
deriving DecidableEq

/-- The loop of `str_casestr`, `while(hlen-- >= nlen) { if(!g_strncasecmp(haystack,
needle, nlen)) return (char*)haystack; haystack++; }`, with `haystack` advanced by `off`
bytes; `hlen` is a `gsize`, its decrement wraps modulo `2 ^ 64`. The `gsize` `nlen` is
converted to the `guint` count of `g_strncasecmp`, which keeps `nlen % 2 ^ 32`. The first
argument bounds the number of iterations, `none` is the bound reached. -/
def casestrLoop : Nat → List Nat → Nat → Nat → List Nat → Nat → Option Found
  | 0, _, _, _, _, _ => none
  | fuel + 1, haystack, off, hlen, needle, nlen =>
    if hlen ≥ nlen then
      if nlen % 2 ^ 32 ≠ 0 ∧ haystack.length < off then some .fault
      else if g_strncasecmp (haystack.drop off) needle (nlen % 2 ^ 32) = 0 then
        some (.ptr off)
      else casestrLoop fuel haystack (off + 1) ((hlen + 2 ^ 64 - 1) % 2 ^ 64) needle nlen
    else some .null

/-- Embedding of `char *str_casestr(const char *haystack, const char *needle)`. -/
def str_casestr (haystack needle : List Nat) : Option Found :=
  casestrLoop (haystack.length + 1) haystack 0 haystack.length needle needle.length

/-- The property searched for: `needle` occurs in `haystack` at byte offset `i`, the
bytes compared ignoring ASCII case. -/
def occursAt (haystack needle : List Nat) (i : Nat) : Bool :=
  decide (i + needle.length ≤ haystack.length) &&
    decide (((haystack.drop i).take needle.length).map asciiLower = needle.map asciiLower)

/-- The macro `gunichar_width(x)`:
`(g_unichar_iswide(x) ? 2 : g_unichar_iszerowidth(x) ? 0 : 1)`; the two GLib predicates
are parameters. -/
def gunichar_width (iswide iszerowidth : Char → Bool) (x : Char) : Int :=
  if iswide x then 2 else if iszerowidth x then 0 else 1

/-- Embedding of `int str_columns(const char *str)`; a valid UTF-8 string is the list of
its characters, `g_utf8_get_char` reads the head and `g_utf8_next_char` moves to the tail. -/
def str_columns (iswide iszerowidth : Char → Bool) : List Char → Int
  | [] => 0
  | c :: rest =>
    (rest.foldl (fun w x => wrapInt (w + gunichar_width iswide iszerowidth x))
      (wrapInt (0 + gunichar_width iswide iszerowidth c)))

/-- The loop of `str_offset_from_columns`: `while(*str && w < col) { w += gunichar_width(
g_utf8_get_char(str)); str = g_utf8_next_char(str); }`, `off` being `str - ostr` in
bytes. -/
def offsetLoop (iswide iszerowidth : Char → Bool) : List Char → Int → Int → Nat → Nat
  | [], _, _, off => off
  | c :: rest, w, col, off =>
    if w < col then
      offsetLoop iswide iszerowidth rest (wrapInt (w + gunichar_width iswide iszerowidth c)) col
        (off + c.utf8Size)
    else off

/-- Embedding of `int str_offset_from_columns(const char *str, int col)`. -/
def str_offset_from_columns (iswide iszerowidth : Char → Bool) (str : List Char) (col : Int) :
    Int :=
  wrapInt (offsetLoop iswide iszerowidth str 0 col 0)

/-- The characters of `str` that lie before byte offset `off`. -/
def charsBefore : List Char → Nat → List Char
  | [], _ => []
  | c :: rest, off => if c.utf8Size ≤ off then c :: charsBefore rest (off - c.utf8Size) else []

/-- One entry of GLib's wide table: U+4E16, a CJK ideograph. -/
def sampleWide (c : Char) : Bool := decide (c.toNat = 0x4E16)

/-- One entry of GLib's zero-width table: U+0301, the combining acute accent. -/
def sampleZeroWidth (c : Char) : Bool := decide (c.toNat = 0x0301)

/-- The C string that starts at offset `p` of a buffer: the characters up to the first
NUL (the buffer's own terminating NUL is the end of the list). -/
def cstr (buf : List Char) (p : Nat) : List Char :=
  (buf.drop p).takeWhile (fun c => c ≠ Char.ofNat 0)

/-- `strchr` on the rest of a buffer, `i` being the offset of its first character. -/
def strchrFrom : List Char → Nat → Char → Option Nat
  | [], _, _ => none
  | x :: xs, i, c =>
    if x = c then some i else if x = Char.ofNat 0 then none else strchrFrom xs (i + 1) c

/-- `strchr(buf + p, c)`: the offset of the first `c` at or after `p`, `none` for `NULL`. -/
def strchr (buf : List Char) (p : Nat) (c : Char) : Option Nat := strchrFrom (buf.drop p) p c

/-- `while(*p == ' ') p++;` on the rest of a buffer, `i` being the offset of its first
character: the offset where the loop stops. -/
def skipSpaces : List Char → Nat → Nat
  | [], i => i
  | x :: xs, i => if x = ' ' then skipSpaces xs (i + 1) else i

/-- What `str_arg2_split` leaves behind: `*first` (`none` for `NULL`), `*second` as an
offset into `str` (`none` for `NULL`), and the bytes of `str`. -/
structure Arg2 where
  first : Option (List Char)
  second : Option Nat
  str : List Char
deriving DecidableEq

/-- The `do { ... } while(sep && (err || bs));` loop of `str_arg2_split`. `start` is `str`
after the leading spaces, `sep` the current separator offset; `g_shell_unquote` is a
parameter, `none` being its failure (`NULL` with `err` set). The result is the buffer,
the final `sep` and `*first`; the first argument bounds the number of iterations. -/
def arg2Loop (g_shell_unquote : List Char → Option (List Char)) (start : Nat) :
    Nat → List Char → Nat → Option (List Char) →
      Option (List Char × Option Nat × Option (List Char))
  | 0, _, _, _ => none
  | fuel + 1, buf, sep, first =>
    match strchr buf (sep + 1) ' ' with
    | some q =>
      if buf.getD (q - 1) ' ' = '\\' then arg2Loop g_shell_unquote start fuel buf q first
      else
        let buf1 := buf.set q (Char.ofNat 0)
        let r := g_shell_unquote (cstr buf1 start)
        let buf2 := buf1.set q ' '
        if r.isNone then arg2Loop g_shell_unquote start fuel buf2 q r
        else some (buf2, some q, r)
    | none => some (buf, none, g_shell_unquote (cstr buf start))

/-- Embedding of `void str_arg2_split(char *str, char **first, char **second)`; `none` is
the iteration bound reached. -/
def str_arg2_split (g_shell_unquote : List Char → Option (List Char)) (str : List Char) :
    Option Arg2 :=
  let start := skipSpaces str 0
  match arg2Loop g_shell_unquote start (str.length + 1) str start none with
  | none => none
  | some (buf, sep, first) =>
    match sep with
    | some q =>
      if q ≠ start then
        some { first := first, second := some (skipSpaces (buf.drop (q + 1)) (q + 1)), str := buf }
      else some { first := first, second := none, str := buf }
    | none => some { first := first, second := none, str := buf }

/-- A stand-in for `g_shell_unquote` on the strings it leaves alone: a string without
quote or backslash is returned as it is; any other string is refused here. -/
def unquotePlain (s : List Char) : Option (List Char) :=
  if s.any (fun c => c = '\'' || c = '"' || c = '\\') then none else some s

/-! ## Lemmas on machine integers -/

theorem sar32_and_31 (v k : Nat) (hk : k ≤ 27) : sar32 v k &&& 0x1F = v / 2 ^ k % 32 := by
  have h := Nat.and_pow_two_sub_one_eq_mod (sar32 v k) 5
  norm_num at h
  rw [h]
  unfold sar32
  split
  · rw [Nat.shiftRight_eq_div_pow]
  · rw [Nat.shiftRight_eq_div_pow]
    interval_cases k <;> omega

theorem sar32_and_255 (v k : Nat) (hk : k ≤ 24) : sar32 v k &&& 0xFF = v / 2 ^ k % 256 := by
  have h := Nat.and_pow_two_sub_one_eq_mod (sar32 v k) 8
  norm_num at h
  rw [h]
  unfold sar32
  split
  · rw [Nat.shiftRight_eq_div_pow]
  · rw [Nat.shiftRight_eq_div_pow]
    interval_cases k <;> omega

theorem shl32_8_or (v b : Nat) (hb : b < 256) :
    shl32 v 8 ||| b = (v * 256 + b) % 2 ^ 32 := by
  have h1 : shl32 v 8 = 2 ^ 8 * (v % 2 ^ 24) := by
    unfold shl32
    rw [Nat.shiftLeft_eq]
    omega
  have h2 := Nat.mul_add_lt_is_or (show b < 2 ^ 8 by omega) (v % 2 ^ 24)
  rw [h1, ← h2]
  omega

theorem shl32_5_or (v d : Nat) (hd : d < 32) :
    shl32 v 5 ||| d = (v * 32 + d) % 2 ^ 32 := by
  have h1 : shl32 v 5 = 2 ^ 5 * (v % 2 ^ 27) := by
    unfold shl32
    rw [Nat.shiftLeft_eq]
    omega
  have h2 := Nat.mul_add_lt_is_or (show d < 2 ^ 5 by omega) (v % 2 ^ 27)
  rw [h1, ← h2]
  omega

/-! ## Lemmas on the base32 codec -/

theorem beNat_concat (base : Nat) (l : List Nat) (d : Nat) :
    beNat base (l ++ [d]) = beNat base l * base + d := by
  simp [beNat, List.foldl_append]

theorem beNat_256_inj : ∀ l1 l2 : List Nat, l1.length = l2.length →
    (∀ b ∈ l1, b < 256) → (∀ b ∈ l2, b < 256) → beNat 256 l1 = beNat 256 l2 → l1 = l2 := by
  intro l1
  induction l1 using List.reverseRecOn with
  | nil =>
    intro l2 hlen _ _ _
    simp at hlen
    exact (List.length_eq_zero.mp hlen.symm).symm
  | append_singleton l1 a ih =>
    intro l2 hlen h1 h2 heq
    rcases List.eq_nil_or_concat l2 with rfl | ⟨l2, b, rfl⟩
    · simp at hlen
    · rw [List.concat_eq_append] at hlen h2 heq ⊢
      rw [beNat_concat, beNat_concat] at heq
      have ha : a < 256 := h1 a (by simp)
      have hb : b < 256 := h2 b (by simp)
      have hlen2 : l1.length = l2.length := by simpa using hlen
      have hab : a = b := by omega
      have hn : beNat 256 l1 = beNat 256 l2 := by omega
      have := ih l2 hlen2 (fun x hx => h1 x (by simp [hx])) (fun x hx => h2 x (by simp [hx])) hn
      rw [this, hab]

theorem decodeDigit_alphabetAt (d : Nat) (hd : d < 32) :
    toBits32 (decodeDigit (alphabetAt d)) = d := by
  interval_cases d <;> decide

theorem encodeWhile_spec (n len : Nat) : ∀ fuel bits ds, bits ≤ fuel → bits ≤ 13 →
    8 * len = 5 * ds.length + bits → beNat 32 ds = n / 2 ^ bits → (∀ d ∈ ds, d < 32) →
    ∃ bits1 ds1, encodeWhile fuel (n % 2 ^ 32) bits (ds.map alphabetAt)
        = (bits1, ds1.map alphabetAt) ∧ EncInv n len bits1 ds1 := by
  intro fuel
  induction fuel with
  | zero =>
    intro bits ds hf _ hlen hval hds
    have hb : bits = 0 := by omega
    subst hb
    exact ⟨0, ds, rfl, by omega, hlen, hval, hds⟩
  | succ fuel ih =>
    intro bits ds hf h13 hlen hval hds
    by_cases hb : bits > 5
    · have hd : sar32 (n % 2 ^ 32) (bits - 5) &&& 0x1F = n / 2 ^ (bits - 5) % 32 := by
        rw [sar32_and_31 _ _ (by omega)]
        interval_cases bits <;> omega
      have hval1 : beNat 32 (ds ++ [n / 2 ^ (bits - 5) % 32]) = n / 2 ^ (bits - 5) := by
        rw [beNat_concat, hval]
        interval_cases bits <;> omega
      obtain ⟨bits1, ds1, hrun, hinv⟩ := ih (bits - 5) (ds ++ [n / 2 ^ (bits - 5) % 32])
        (by omega) (by omega) (by simp; omega) hval1
        (by
          intro d hd1
          rcases List.mem_append.mp hd1 with h | h
          · exact hds d h
          · simp at h; omega)
      refine ⟨bits1, ds1, ?_, hinv⟩
      rw [encodeWhile, if_pos hb, hd, ← hrun]
      simp
    · refine ⟨bits, ds, ?_, by omega, hlen, hval, hds⟩
      rw [encodeWhile, if_neg hb]

theorem encodeFor_spec : ∀ (rest p ds : List Nat) (bits : Nat),
    EncInv (beNat 256 p) p.length bits ds → (∀ b ∈ rest, b < 256) →
    ∃ bits1 ds1, encodeFor rest (beNat 256 p % 2 ^ 32) bits (ds.map alphabetAt)
        = (beNat 256 (p ++ rest) % 2 ^ 32, bits1, ds1.map alphabetAt) ∧
      EncInv (beNat 256 (p ++ rest)) (p ++ rest).length bits1 ds1 := by
  intro rest
  induction rest with
  | nil =>
    intro p ds bits hinv _
    exact ⟨bits, ds, by simp [encodeFor], by simpa using hinv⟩
  | cons b rest ih =>
    intro p ds bits hinv hrest
    obtain ⟨hb5, hlen, hval, hds⟩ := hinv
    have hb : b < 256 := hrest b (by simp)
    have hv1 : shl32 (beNat 256 p % 2 ^ 32) 8 ||| (b % 256) = beNat 256 (p ++ [b]) % 2 ^ 32 := by
      rw [Nat.mod_eq_of_lt hb, shl32_8_or _ _ hb, beNat_concat]
      omega
    have hval1 : beNat 32 ds = beNat 256 (p ++ [b]) / 2 ^ (bits + 8) := by
      rw [hval, beNat_concat]
      interval_cases bits <;> omega
    obtain ⟨bits1, ds1, hrun1, hinv1⟩ := encodeWhile_spec (beNat 256 (p ++ [b])) (p ++ [b]).length
      (bits + 8) (bits + 8) ds (le_refl _) (by omega) (by simp; omega) hval1 hds
    obtain ⟨bits2, ds2, hrun2, hinv2⟩ := ih (p ++ [b]) ds1 bits1 hinv1
      (fun x hx => hrest x (by simp [hx]))
    refine ⟨bits2, ds2, ?_, ?_⟩
    · rw [encodeFor]
      simp only [hv1, hrun1, hrun2]
      simp
    · simpa using hinv2

theorem decodeWhile_spec (m len : Nat) : ∀ fuel bits bs, bits ≤ fuel → bits ≤ 13 →
    5 * len = 8 * bs.length + bits → beNat 256 bs = m / 2 ^ bits → (∀ b ∈ bs, b < 256) →
    ∃ bits1 bs1, decodeWhile fuel (m % 2 ^ 32) bits bs = (bits1, bs1) ∧
      DecInv m len bits1 bs1 := by
  intro fuel
  induction fuel with
  | zero =>
    intro bits bs hf _ hlen hval hbs
    have hb : bits = 0 := by omega
    subst hb
    exact ⟨0, bs, rfl, by omega, hlen, hval, hbs⟩
  | succ fuel ih =>
    intro bits bs hf h13 hlen hval hbs
    by_cases hb : bits > 8
    · have hd : sar32 (m % 2 ^ 32) (bits - 8) &&& 0xFF = m / 2 ^ (bits - 8) % 256 := by
        rw [sar32_and_255 _ _ (by omega)]
        interval_cases bits <;> omega
      have hval1 : beNat 256 (bs ++ [m / 2 ^ (bits - 8) % 256]) = m / 2 ^ (bits - 8) := by
        rw [beNat_concat, hval]
        interval_cases bits <;> omega
      obtain ⟨bits1, bs1, hrun, hinv⟩ := ih (bits - 8) (bs ++ [m / 2 ^ (bits - 8) % 256])
        (by omega) (by omega) (by simp; omega) hval1
        (by
          intro d hd1
          rcases List.mem_append.mp hd1 with h | h
          · exact hbs d h
          · simp at h; omega)
      refine ⟨bits1, bs1, ?_, hinv⟩
      rw [decodeWhile, if_pos hb, hd, ← hrun]
    · refine ⟨bits, bs, ?_, by omega, hlen, hval, hbs⟩
      rw [decodeWhile, if_neg hb]

theorem decodeFor_spec : ∀ (rest q bs : List Nat) (bits : Nat),
    DecInv (beNat 32 q) q.length bits bs → (∀ d ∈ rest, d < 32) →
    ∃ bits1 bs1, decodeFor (rest.map alphabetAt) (beNat 32 q % 2 ^ 32) bits bs
        = (beNat 32 (q ++ rest) % 2 ^ 32, bits1, bs1) ∧
      DecInv (beNat 32 (q ++ rest)) (q ++ rest).length bits1 bs1 := by
  intro rest
  induction rest with
  | nil =>
    intro q bs bits hinv _
    exact ⟨bits, bs, by simp [decodeFor], by simpa using hinv⟩
  | cons d rest ih =>
    intro q bs bits hinv hrest
    obtain ⟨hb8, hlen, hval, hbs⟩ := hinv
    have hd : d < 32 := hrest d (by simp)
    have hv1 : shl32 (beNat 32 q % 2 ^ 32) 5 ||| toBits32 (decodeDigit (alphabetAt d))
        = beNat 32 (q ++ [d]) % 2 ^ 32 := by
      rw [decodeDigit_alphabetAt d hd, shl32_5_or _ _ hd, beNat_concat]
      omega
    have hval1 : beNat 256 bs = beNat 32 (q ++ [d]) / 2 ^ (bits + 5) := by
      rw [hval, beNat_concat]
      interval_cases bits <;> omega
    obtain ⟨bits1, bs1, hrun1, hinv1⟩ := decodeWhile_spec (beNat 32 (q ++ [d])) (q ++ [d]).length
      (bits + 5) (bits + 5) bs (le_refl _) (by omega) (by simp; omega) hval1 hbs
    obtain ⟨bits2, bs2, hrun2, hinv2⟩ := ih (q ++ [d]) bs1 bits1 hinv1
      (fun x hx => hrest x (by simp [hx]))
    refine ⟨bits2, bs2, ?_, ?_⟩
    · rw [List.map_cons, decodeFor]
      simp only [hv1, hrun1, hrun2]
      simp
    · simpa using hinv2

/-- What `base32_encode` writes for 24 bytes: 39 alphabet characters whose indices are
the base-32 digits of eight times the big-endian value of the input. -/
theorem base32_encode_digits (x : List Nat) (hlen : x.length = 24) (hx : ∀ b ∈ x, b < 256) :
    ∃ ds : List Nat, base32_encode x = ds.map alphabetAt ∧ ds.length = 39 ∧
      (∀ d ∈ ds, d < 32) ∧ beNat 32 ds = beNat 256 x * 8 := by
  obtain ⟨bits1, ds1, hrun, hb5, hl, hval, hds⟩ := encodeFor_spec x [] [] 0
    ⟨by omega, by simp, by simp [beNat], by simp⟩ hx
  simp only [List.nil_append, hlen] at hl hval hrun
  have hbits : bits1 = 2 := by omega
  subst hbits
  have hl1 : ds1.length = 38 := by omega
  have htake : x.take 24 = x := by rw [← hlen]; exact List.take_length x
  have hrun0 : encodeFor x 0 0 [] = (beNat 256 x % 2 ^ 32, 2, ds1.map alphabetAt) := by
    simpa [beNat] using hrun
  have hlast : shl32 (beNat 256 x % 2 ^ 32) (5 - 2) &&& 0x1F = beNat 256 x * 8 % 32 := by
    have h := Nat.and_pow_two_sub_one_eq_mod (shl32 (beNat 256 x % 2 ^ 32) (5 - 2)) 5
    norm_num at h
    norm_num
    rw [h]
    unfold shl32
    rw [Nat.shiftLeft_eq]
    omega
  refine ⟨ds1 ++ [beNat 256 x * 8 % 32], ?_, by simp [hl1], ?_, ?_⟩
  · unfold base32_encode
    rw [htake, hrun0]
    simp only [show (2 : Nat) > 0 by omega, if_true, hlast]
    simp
  · intro d hd
    rcases List.mem_append.mp hd with h | h
    · exact hds d h
    · simp at h; omega
  · rw [beNat_concat, hval]
    omega

/-! ## Base32 round trip -/

/-- C1. Base32 round trip: for every 24-byte input `x` (bytes as unsigned values),
`base32_encode` writes 39 characters and `base32_decode` applied to them writes back
exactly the 24 bytes of `x`. -/
theorem base32_decode_encode (x : List Nat) (hlen : x.length = 24) (hx : ∀ b ∈ x, b < 256) :
    (base32_encode x).length = 39 ∧ base32_decode (base32_encode x) = x := by
  obtain ⟨ds, henc, hl, hds, hval⟩ := base32_encode_digits x hlen hx
  obtain ⟨bits1, bs1, hrun, hb8, hl1, hval1, hbs⟩ := decodeFor_spec ds [] [] 0
    ⟨by omega, by simp, by simp [beNat], by simp⟩ hds
  simp only [List.nil_append, hl] at hl1 hval1 hrun
  have hbits : bits1 = 3 := by omega
  subst hbits
  have hlen1 : bs1.length = 24 := by omega
  have hrun0 : decodeFor (ds.map alphabetAt) 0 0 [] = (beNat 32 ds % 2 ^ 32, 3, bs1) := by
    simpa [beNat] using hrun
  have htake : (ds.map alphabetAt).take 39 = ds.map alphabetAt := by
    rw [← hl, ← List.length_map ds alphabetAt]
    exact List.take_length _
  have heq : beNat 256 bs1 = beNat 256 x := by
    rw [hval1, hval]
    omega
  refine ⟨by rw [henc, List.length_map, hl], ?_⟩
  rw [henc]
  unfold base32_decode
  rw [htake, hrun0]
  exact beNat_256_inj bs1 x (by omega) hbs hx heq

/-- Witness: the 24 bytes 0, 1, ..., 23. -/
theorem base32_decode_encode_witness :
    (List.range 24).length = 24 ∧ (∀ b ∈ List.range 24, b < 256) ∧
      (base32_encode (List.range 24)).length = 39 ∧
      base32_decode (base32_encode (List.range 24)) = List.range 24 :=
  ⟨by decide, by decide, base32_decode_encode (List.range 24) (by decide) (by decide)⟩

/-! ## Lemmas on the rate calculator -/

theorem wrapInt_of_range (x : Int) (h0 : -2 ^ 31 ≤ x) (h1 : x < 2 ^ 31) : wrapInt x = x := by
  unfold wrapInt
  omega

theorem smooth_of_nonneg (r d : Int) (hr0 : 0 ≤ r) (hr1 : r < 2 ^ 31) (hd0 : 0 ≤ d)
    (hd1 : d < 2 ^ 31) : smooth r d = d + (r - d).tdiv 2 := by
  unfold smooth
  have h1 : wrapInt (r - d) = r - d := wrapInt_of_range _ (by omega) (by omega)
  rw [h1]
  have hq0 : -2 ^ 31 < (r - d).tdiv 2 ∧ (r - d).tdiv 2 < 2 ^ 31 ∧
      0 ≤ d + (r - d).tdiv 2 ∧ d + (r - d).tdiv 2 < 2 ^ 31 := by
    rcases Int.le_total 0 (r - d) with h | h
    · have := Int.tdiv_nonneg h (by norm_num : (0 : Int) ≤ 2)
      have h2 : (r - d).tdiv 2 = (r - d) / 2 := Int.tdiv_eq_ediv h (by norm_num)
      omega
    · have h2 : (r - d).tdiv 2 = -((d - r) / 2) := by
        have h3 : r - d = -(d - r) := by ring
        rw [h3, Int.neg_tdiv, Int.tdiv_eq_ediv (by omega) (by norm_num)]
      omega
  rw [wrapInt_of_range ((r - d).tdiv 2) (by omega) (by omega),
    wrapInt_of_range _ (by omega) (by omega)]

theorem store_same (mem : Nat → ratecalc) (rc : Nat) (v : ratecalc) : store mem rc v rc = v := by
  simp [store]

theorem store_other (mem : Nat → ratecalc) (rc p : Nat) (v : ratecalc) (h : p ≠ rc) :
    store mem rc v p = mem p := by
  simp [store, h]

theorem g_slist_remove_eq_erase (l : List Nat) (rc : Nat) : g_slist_remove l rc = l.erase rc := by
  induction l with
  | nil => rfl
  | cons x l ih =>
    rw [g_slist_remove, List.erase_cons, ih]
    by_cases h : x = rc <;> simp [h]

theorem calc_list_not_mem (l : List Nat) : ∀ (mem : Nat → ratecalc) (p : Nat), p ∉ l →
    l.foldl calc_node mem p = mem p := by
  induction l with
  | nil => intro mem p _; rfl
  | cons x l ih =>
    intro mem p hp
    have hx : p ≠ x := fun h => hp (by simp [h])
    have hl : p ∉ l := fun h => hp (by simp [h])
    rw [List.foldl_cons, ih _ p hl]
    exact store_other _ _ _ _ hx

theorem calc_list_mem (l : List Nat) : ∀ (mem : Nat → ratecalc) (p : Nat), l.Nodup → p ∈ l →
    l.foldl calc_node mem p =
      { mem p with counter := 0, rate := smooth (mem p).rate (mem p).counter } := by
  induction l with
  | nil => intro mem p _ hp; simp at hp
  | cons x l ih =>
    intro mem p hnd hp
    rw [List.nodup_cons] at hnd
    rw [List.foldl_cons]
    rcases List.mem_cons.mp hp with h | h
    · subst h
      rw [calc_list_not_mem l _ p hnd.1]
      exact store_same _ _ _
    · have hx : p ≠ x := fun e => hnd.1 (e ▸ h)
      rw [ih _ p hnd.2 h]
      simp [calc_node, store, hx]

theorem calc_list_isreg (l : List Nat) : ∀ (mem : Nat → ratecalc) (p : Nat),
    (l.foldl calc_node mem p).isreg = (mem p).isreg := by
  induction l with
  | nil => intro mem p; rfl
  | cons x l ih =>
    intro mem p
    rw [List.foldl_cons, ih]
    by_cases h : p = x <;> simp [calc_node, store, h]

theorem calc_list_congr (l : List Nat) (e : Nat) : ∀ (m1 m2 : Nat → ratecalc), e ∉ l →
    (∀ p, p ≠ e → m1 p = m2 p) → ∀ p, p ≠ e → l.foldl calc_node m1 p = l.foldl calc_node m2 p := by
  induction l with
  | nil => intro m1 m2 _ h p hp; exact h p hp
  | cons x l ih =>
    intro m1 m2 he h p hp
    have hx : x ≠ e := fun c => he (by simp [c])
    have hl : e ∉ l := fun c => he (by simp [c])
    rw [List.foldl_cons, List.foldl_cons]
    apply ih _ _ hl _ p hp
    intro q hq
    by_cases hqx : q = x
    · subst hqx
      simp [calc_node, store, h q hq]
    · simp [calc_node, store, hqx, h q hq]

/-- The registry of the macros: no address twice, and every listed entity is flagged. -/
theorem step_nodup (s : State) (op : Op)
    (h : s.ratecalc_list.Nodup ∧ ∀ e ∈ s.ratecalc_list, (s.mem e).isreg ≠ 0) :
    (step s op).ratecalc_list.Nodup ∧
      ∀ e ∈ (step s op).ratecalc_list, ((step s op).mem e).isreg ≠ 0 := by
  obtain ⟨hnd, hfl⟩ := h
  cases op with
  | init rc =>
    simp only [step, ratecalc_init, ratecalc_reset, ratecalc_unregister, g_slist_remove_eq_erase]
    refine ⟨hnd.erase rc, ?_⟩
    intro e he
    have hne : e ≠ rc := ((List.Nodup.mem_erase_iff hnd).mp he).1
    have hin : e ∈ s.ratecalc_list := ((List.Nodup.mem_erase_iff hnd).mp he).2
    simpa [store, hne] using hfl e hin
  | register rc =>
    simp only [step, ratecalc_register]
    split
    · rename_i h0
      refine ⟨?_, ?_⟩
      · simp only [g_slist_prepend, List.nodup_cons]
        exact ⟨fun c => hfl rc c h0, hnd⟩
      · intro e he
        simp only [g_slist_prepend, List.mem_cons] at he
        by_cases hne : e = rc
        · simp [store, hne]
        · rcases he with he | he
          · exact absurd he hne
          · simpa [store, hne] using hfl e he
    · exact ⟨hnd, hfl⟩
  | unregister rc =>
    simp only [step, ratecalc_unregister, g_slist_remove_eq_erase]
    refine ⟨hnd.erase rc, ?_⟩
    intro e he
    have hne : e ≠ rc := ((List.Nodup.mem_erase_iff hnd).mp he).1
    have hin : e ∈ s.ratecalc_list := ((List.Nodup.mem_erase_iff hnd).mp he).2
    simpa [store, hne] using hfl e hin
  | add rc b =>
    simp only [step, ratecalc_add]
    refine ⟨hnd, ?_⟩
    intro e he
    by_cases hne : e = rc
    · subst hne
      simpa [store] using hfl e he
    · simpa [store, hne] using hfl e he
  | reset rc =>
    simp only [step, ratecalc_reset]
    refine ⟨hnd, ?_⟩
    intro e he
    by_cases hne : e = rc
    · subst hne
      simpa [store] using hfl e he
    · simpa [store, hne] using hfl e he
  | tick =>
    simp only [step, ratecalc_calc]
    refine ⟨hnd, ?_⟩
    intro e he
    rw [calc_list_isreg]
    exact hfl e he

theorem run_nodup (ops : List Op) : ∀ s : State,
    (s.ratecalc_list.Nodup ∧ ∀ e ∈ s.ratecalc_list, (s.mem e).isreg ≠ 0) →
    (run s ops).ratecalc_list.Nodup ∧
      ∀ e ∈ (run s ops).ratecalc_list, ((run s ops).mem e).isreg ≠ 0 := by
  induction ops with
  | nil => intro s h; exact h
  | cons op ops ih =>
    intro s h
    exact ih (step s op) (step_nodup s op h)

theorem reachable_nodup (s : State) (h : Reachable s) : s.ratecalc_list.Nodup := by
  obtain ⟨mem, ops, rfl⟩ := h
  exact (run_nodup ops (start mem) ⟨by simp [start], by simp [start]⟩).1

theorem reachable_step (s : State) (h : Reachable s) (op : Op) : Reachable (step s op) := by
  obtain ⟨mem, ops, rfl⟩ := h
  exact ⟨mem, ops ++ [op], by simp [run, List.foldl_append]⟩

theorem calc_mem_of_nodup (s : State) (hnd : s.ratecalc_list.Nodup) (rc : Nat)
    (hreg : rc ∈ s.ratecalc_list) :
    (ratecalc_calc s).mem rc =
      { s.mem rc with counter := 0, rate := smooth (s.mem rc).rate (s.mem rc).counter } :=
  calc_list_mem s.ratecalc_list s.mem rc hnd hreg

theorem init_register_state (s : State) (hs : s.ratecalc_list.Nodup) (rc : Nat) :
    (ratecalc_register (ratecalc_init s rc) rc).ratecalc_list.Nodup ∧
      rc ∈ (ratecalc_register (ratecalc_init s rc) rc).ratecalc_list ∧
      (ratecalc_register (ratecalc_init s rc) rc).mem rc = ⟨0, 0, 1⟩ := by
  have h1 : (ratecalc_register (ratecalc_init s rc) rc).ratecalc_list
      = rc :: s.ratecalc_list.erase rc := by
    simp [ratecalc_register, ratecalc_init, ratecalc_reset, ratecalc_unregister, store,
      g_slist_prepend, g_slist_remove_eq_erase]
  refine ⟨?_, ?_, ?_⟩
  · rw [h1, List.nodup_cons]
    exact ⟨List.Nodup.not_mem_erase hs, hs.erase rc⟩
  · rw [h1]
    exact List.mem_cons_self _ _
  · simp [ratecalc_register, ratecalc_init, ratecalc_reset, ratecalc_unregister, store]

/-! ## The smoothing update -/

/-- C2. Update rule of `ratecalc_calc()`: in every state of the registry (memory of any
content and a list that, being a registry, names no entity twice), for every registered
entity whose counter `delta` and rate `r` before the tick are non-negative `int`s, the
tick sets the counter to 0 and the rate to `delta + ((r - delta) / 2)`, the division
truncating toward zero. -/
theorem ratecalc_calc_update (s : State) (hs : s.ratecalc_list.Nodup) (rc : Nat)
    (hreg : rc ∈ s.ratecalc_list)
    (hc0 : 0 ≤ (s.mem rc).counter) (hc1 : (s.mem rc).counter < 2 ^ 31)
    (hr0 : 0 ≤ (s.mem rc).rate) (hr1 : (s.mem rc).rate < 2 ^ 31) :
    ((ratecalc_calc s).mem rc).counter = 0 ∧
      ((ratecalc_calc s).mem rc).rate =
        (s.mem rc).counter + ((s.mem rc).rate - (s.mem rc).counter).tdiv 2 := by
  rw [calc_mem_of_nodup s hs rc hreg]
  exact ⟨rfl, smooth_of_nonneg _ _ hr0 hr1 hc0 hc1⟩

/-- Witness: a registered entity with rate 0 and counter 1;
the tick gives rate 1 (floor division would give 0). -/
theorem ratecalc_calc_update_witness :
    (run (start zeroMem) [.init 0, .register 0, .add 0 1]).ratecalc_list.Nodup ∧
      (0 : Nat) ∈ (run (start zeroMem) [.init 0, .register 0, .add 0 1]).ratecalc_list ∧
      ((run (start zeroMem) [.init 0, .register 0, .add 0 1]).mem 0).counter = 1 ∧
      ((run (start zeroMem) [.init 0, .register 0, .add 0 1]).mem 0).rate = 0 ∧
      ((ratecalc_calc (run (start zeroMem) [.init 0, .register 0, .add 0 1])).mem 0).counter = 0 ∧
      ((ratecalc_calc (run (start zeroMem) [.init 0, .register 0, .add 0 1])).mem 0).rate = 1 :=
  have h := ratecalc_calc_update (run (start zeroMem) [.init 0, .register 0, .add 0 1])
    (by decide) 0 (by decide) (by decide) (by decide) (by decide) (by decide)
  ⟨by decide, by decide, by decide, by decide, h.1, h.2.trans (by decide)⟩

/-- Counterexample to the hand-computed rates 100, 50, 25: after `ratecalc_init`, `ratecalc_register`, `ratecalc_add(.., 100)`
the first tick gives rate 50, not 100 (and the next two give 25 and 12, not 50 and 25). -/
theorem ratecalc_example_as_stated_fails :
    ¬ (ratecalc_get (run (start zeroMem) [.init 0, .register 0, .add 0 100, .tick]) 0 = 100 ∧
      ratecalc_get (run (start zeroMem) [.init 0, .register 0, .add 0 100, .tick, .tick]) 0 = 50 ∧
      ratecalc_get (run (start zeroMem) [.init 0, .register 0, .add 0 100, .tick, .tick, .tick]) 0
        = 25) := by
  decide

/-- C3, amended. For an entity freshly initialised and registered (in any state whose
list names no entity twice), adding 100 before the first of three successive ticks and
nothing afterwards makes `ratecalc_get` return 50 after the first tick, 25 after the
second and 12 after the third. -/
theorem ratecalc_example (s : State) (hs : s.ratecalc_list.Nodup) (rc : Nat) :
    ratecalc_get (ratecalc_calc
        (ratecalc_add (ratecalc_register (ratecalc_init s rc) rc) rc 100)) rc = 50 ∧
      ratecalc_get (ratecalc_calc (ratecalc_calc
        (ratecalc_add (ratecalc_register (ratecalc_init s rc) rc) rc 100))) rc = 25 ∧
      ratecalc_get (ratecalc_calc (ratecalc_calc (ratecalc_calc
        (ratecalc_add (ratecalc_register (ratecalc_init s rc) rc) rc 100)))) rc = 12 := by
  obtain ⟨hnd, hin, hmem⟩ := init_register_state s hs rc
  generalize ratecalc_register (ratecalc_init s rc) rc = t at hnd hin hmem
  have e1 : (ratecalc_calc (ratecalc_add t rc 100)).mem rc = ⟨0, 50, 1⟩ := by
    rw [calc_mem_of_nodup (ratecalc_add t rc 100) hnd rc hin]
    simp only [ratecalc_add, store_same, hmem]
    decide
  have e2 : (ratecalc_calc (ratecalc_calc (ratecalc_add t rc 100))).mem rc = ⟨0, 25, 1⟩ := by
    rw [calc_mem_of_nodup (ratecalc_calc (ratecalc_add t rc 100)) hnd rc hin, e1]
    decide
  have e3 : (ratecalc_calc (ratecalc_calc (ratecalc_calc (ratecalc_add t rc 100)))).mem rc
      = ⟨0, 12, 1⟩ := by
    rw [calc_mem_of_nodup (ratecalc_calc (ratecalc_calc (ratecalc_add t rc 100))) hnd rc hin, e2]
    decide
  simp [ratecalc_get, e1, e2, e3]

/-- Witness: the empty registry with zeroed memory, entity 0. -/
theorem ratecalc_example_witness :
    (start zeroMem).ratecalc_list.Nodup ∧
      ratecalc_get (ratecalc_calc
        (ratecalc_add (ratecalc_register (ratecalc_init (start zeroMem) 0) 0) 0 100)) 0 = 50 ∧
      ratecalc_get (ratecalc_calc (ratecalc_calc
        (ratecalc_add (ratecalc_register (ratecalc_init (start zeroMem) 0) 0) 0 100))) 0 = 25 ∧
      ratecalc_get (ratecalc_calc (ratecalc_calc (ratecalc_calc
        (ratecalc_add (ratecalc_register (ratecalc_init (start zeroMem) 0) 0) 0 100)))) 0 = 12 :=
  ⟨by decide, ratecalc_example (start zeroMem) (by decide) 0⟩

/-! ## No lost increments -/

theorem act_coord_total (t : Shared) :
    (act t .coord).deltas.sum + (act t .coord).counter = t.deltas.sum + t.counter ∧
      (0 ≤ t.counter → 0 ≤ (act t .coord).counter) := by
  unfold act
  cases hpc : t.pc with
  | get => simp
  | cas =>
    by_cases h : t.counter = t.cur
    · simp [h]
    · simp [h]

theorem interleave_total : ∀ (sched : List Act) (s : Shared), 0 ≤ s.counter →
    (∀ b ∈ amounts sched, 0 ≤ b) → noOverflow s sched = true →
    (interleave s sched).deltas.sum + (interleave s sched).counter
        = s.deltas.sum + s.counter + (amounts sched).sum ∧
      0 ≤ (interleave s sched).counter := by
  intro sched
  induction sched with
  | nil => intro s h0 _ _; simp [interleave, amounts, h0]
  | cons a sched ih =>
    intro s h0 hpos hno
    cases a with
    | add b =>
      have hb : 0 ≤ b := hpos b (by simp [amounts])
      simp only [noOverflow, Bool.and_eq_true, decide_eq_true_eq] at hno
      have hw : wrapInt (s.counter + b) = s.counter + b :=
        wrapInt_of_range _ (by omega) hno.1
      have h := ih (act s (.add b)) (by simp only [act, hw]; omega)
        (fun x hx => hpos x (by simp [amounts, hx])) hno.2
      simp only [interleave, List.foldl_cons] at h ⊢
      refine ⟨?_, h.2⟩
      rw [h.1]
      simp only [act, hw, amounts, List.sum_cons]
      ring
    | coord =>
      simp only [noOverflow] at hno
      have hc := act_coord_total s
      have h := ih (act s .coord) (hc.2 h0) (fun x hx => hpos x (by simpa [amounts] using hx)) hno
      simp only [interleave, List.foldl_cons] at h ⊢
      refine ⟨?_, h.2⟩
      rw [h.1, hc.1]
      simp only [amounts]

theorem coords_total : ∀ (n : Nat) (t : Shared),
    (interleave t (List.replicate n .coord)).deltas.sum
        + (interleave t (List.replicate n .coord)).counter = t.deltas.sum + t.counter := by
  intro n
  induction n with
  | zero => intro t; simp [interleave]
  | succ n ih =>
    intro t
    simp only [interleave, List.replicate_succ, List.foldl_cons] at ih ⊢
    rw [ih (act t .coord), (act_coord_total t).1]

theorem coord_keeps_zero (t : Shared) (h : t.counter = 0) : (act t .coord).counter = 0 := by
  unfold act
  cases hpc : t.pc with
  | get => simpa using h
  | cas =>
    by_cases hc : t.counter = t.cur
    · simp [hc]
    · simpa [hc] using h

theorem coords_keep_zero : ∀ (n : Nat) (t : Shared), t.counter = 0 →
    (interleave t (List.replicate n .coord)).counter = 0 := by
  intro n
  induction n with
  | zero => intro t h; simpa [interleave] using h
  | succ n ih =>
    intro t h
    simp only [interleave, List.replicate_succ, List.foldl_cons] at ih ⊢
    exact ih (act t .coord) (coord_keeps_zero t h)

theorem two_coords_from_get (t : Shared) (h : t.pc = .get) :
    (act (act t .coord) .coord).counter = 0 ∧
      (act (act t .coord) .coord).deltas = t.deltas ++ [t.counter] := by
  simp [act, h]

theorem three_coords_zero (t : Shared) : (act (act (act t .coord) .coord) .coord).counter = 0 := by
  cases hpc : t.pc with
  | get => exact coord_keeps_zero _ (two_coords_from_get t hpc).1
  | cas =>
    by_cases hc : t.counter = t.cur
    · have h1 : (act t .coord).counter = 0 := by simp [act, hpc, hc]
      exact coord_keeps_zero _ (coord_keeps_zero _ h1)
    · have h1 : (act t .coord).pc = .get := by simp [act, hpc, hc]
      exact (two_coords_from_get _ h1).1

/-- C4. No lost increments. One counter, starting at 0, under any interleaving of the
producers' atomic adds (amounts `a_i >= 0`, no add overflowing the `int`) with the atomic
get and compare-and-exchange-to-0 of the coordinator's retry loop: the deltas taken by
the successful exchanges plus the current counter always sum to the total of the adds.
Hence once the adds are over, a final tick accounts for everything: after the get and
exchange of a coordinator standing between two ticks, and after any three or more
coordinator actions wherever it stands, the counter is 0 and the deltas sum to exactly
the total added. -/
theorem no_lost_increments (sched : List Act) (hpos : ∀ b ∈ amounts sched, 0 ≤ b)
    (hno : noOverflow Shared.fresh sched = true) :
    (interleave Shared.fresh sched).deltas.sum + (interleave Shared.fresh sched).counter
        = (amounts sched).sum ∧
      ((interleave Shared.fresh sched).pc = .get →
        (interleave Shared.fresh (sched ++ [.coord, .coord])).counter = 0 ∧
        (interleave Shared.fresh (sched ++ [.coord, .coord])).deltas.sum = (amounts sched).sum) ∧
      ∀ n, 3 ≤ n →
        (interleave Shared.fresh (sched ++ List.replicate n .coord)).counter = 0 ∧
        (interleave Shared.fresh (sched ++ List.replicate n .coord)).deltas.sum
          = (amounts sched).sum := by
  have hinv := interleave_total sched Shared.fresh (by decide) hpos hno
  have hfresh : Shared.fresh.deltas.sum + Shared.fresh.counter = 0 := by decide
  rw [hfresh, zero_add] at hinv
  refine ⟨hinv.1, ?_, ?_⟩
  · intro hpc
    have h2 := two_coords_from_get _ hpc
    simp only [interleave, List.foldl_append, List.foldl_cons, List.foldl_nil] at h2 hinv ⊢
    refine ⟨h2.1, ?_⟩
    rw [h2.2, List.sum_append, List.sum_singleton]
    exact hinv.1
  · intro n hn
    obtain ⟨k, rfl⟩ : ∃ k, n = k + 3 := ⟨n - 3, by omega⟩
    have hsplit : sched ++ List.replicate (k + 3) Act.coord
        = sched ++ [.coord, .coord, .coord] ++ List.replicate k Act.coord := by
      rw [List.append_assoc]
      rfl
    have h3 := three_coords_zero (interleave Shared.fresh sched)
    have hz := coords_keep_zero k _ h3
    have ht := coords_total (k + 3) (interleave Shared.fresh sched)
    have hrun : interleave Shared.fresh (sched ++ List.replicate (k + 3) Act.coord)
        = interleave (interleave Shared.fresh sched) (List.replicate (k + 3) Act.coord) := by
      simp [interleave, List.foldl_append]
    have hz1 : (interleave Shared.fresh (sched ++ List.replicate (k + 3) Act.coord)).counter = 0 := by
      rw [hsplit]
      simpa [interleave, List.foldl_append] using hz
    refine ⟨hz1, ?_⟩
    rw [hrun] at hz1 ⊢
    rw [hz1, add_zero] at ht
    rw [ht]
    exact hinv.1

/-- Witness: two adds race with a tick (the first exchange fails, the retry takes 7),
a third add follows; the final tick takes the remaining 5. -/
theorem no_lost_increments_witness :
    (∀ b ∈ amounts [.add 3, .coord, .add 4, .coord, .coord, .coord, .add 5], (0 : Int) ≤ b) ∧
      noOverflow Shared.fresh [.add 3, .coord, .add 4, .coord, .coord, .coord, .add 5] = true ∧
      (interleave Shared.fresh
        ([.add 3, .coord, .add 4, .coord, .coord, .coord, .add 5] ++ [.coord, .coord])).deltas
        = [7, 5] ∧
      (interleave Shared.fresh
        ([.add 3, .coord, .add 4, .coord, .coord, .coord, .add 5] ++ [.coord, .coord])).deltas.sum
        = (amounts [.add 3, .coord, .add 4, .coord, .coord, .coord, .add 5]).sum :=
  ⟨by decide, by decide, by decide,
    ((no_lost_increments [.add 3, .coord, .add 4, .coord, .coord, .coord, .add 5]
      (by decide) (by decide)).2.1 (by decide)).2⟩

/-! ## The registration flag -/

theorem regInv_same_flags (known : List Nat) (s t : State) (h : RegInv known s)
    (hl : t.ratecalc_list = s.ratecalc_list) (hf : ∀ e, (t.mem e).isreg = (s.mem e).isreg) :
    RegInv known t := by
  unfold RegInv at h ⊢
  rw [hl]
  refine ⟨h.1, h.2.1, ?_⟩
  intro e he
  rw [hf e]
  exact h.2.2 e he

theorem regInv_unregister (known : List Nat) (s : State) (h : RegInv known s) (rc : Nat) :
    RegInv (rc :: known) (ratecalc_unregister s rc) := by
  obtain ⟨hnd, hsub, hfl⟩ := h
  have hmem : ∀ e, e ∈ (ratecalc_unregister s rc).ratecalc_list ↔ e ≠ rc ∧ e ∈ s.ratecalc_list := by
    intro e
    simp only [ratecalc_unregister, g_slist_remove_eq_erase]
    exact List.Nodup.mem_erase_iff hnd
  refine ⟨?_, ?_, ?_⟩
  · simp only [ratecalc_unregister, g_slist_remove_eq_erase]
    exact hnd.erase rc
  · intro e he
    exact List.mem_cons_of_mem _ (hsub e ((hmem e).mp he).2)
  · intro e he
    by_cases hne : e = rc
    · subst hne
      right
      exact ⟨fun c => ((hmem e).mp c).1 rfl, by simp [ratecalc_unregister, store]⟩
    · have hk : e ∈ known := by
        rcases List.mem_cons.mp he with c | c
        · exact absurd c hne
        · exact c
      have hflag : ((ratecalc_unregister s rc).mem e).isreg = (s.mem e).isreg := by
        simp [ratecalc_unregister, store, hne]
      rw [hflag, hmem e]
      rcases hfl e hk with c | c
      · exact Or.inl ⟨⟨hne, c.1⟩, c.2⟩
      · exact Or.inr ⟨fun d => c.1 d.2, c.2⟩

theorem regInv_shrink (known : List Nat) (s : State) (rc : Nat) (hrc : rc ∈ known)
    (h : RegInv (rc :: known) s) : RegInv known s := by
  obtain ⟨hnd, hsub, hfl⟩ := h
  refine ⟨hnd, ?_, fun e he => hfl e (List.mem_cons_of_mem _ he)⟩
  intro e he
  rcases List.mem_cons.mp (hsub e he) with c | c
  · exact c ▸ hrc
  · exact c

theorem regInv_register (known : List Nat) (s : State) (h : RegInv known s) (rc : Nat)
    (hrc : rc ∈ known) : RegInv known (ratecalc_register s rc) := by
  obtain ⟨hnd, hsub, hfl⟩ := h
  unfold ratecalc_register
  split
  · rename_i h0
    have hout : rc ∉ s.ratecalc_list := by
      rcases hfl rc hrc with c | c
      · rw [h0] at c
        exact absurd c.2 (by decide)
      · exact c.1
    refine ⟨?_, ?_, ?_⟩
    · simp only [g_slist_prepend, List.nodup_cons]
      exact ⟨hout, hnd⟩
    · intro e he
      simp only [g_slist_prepend, List.mem_cons] at he
      rcases he with c | c
      · exact c ▸ hrc
      · exact hsub e c
    · intro e he
      by_cases hne : e = rc
      · subst hne
        left
        simp [g_slist_prepend, store]
      · rcases hfl e he with c | c
        · left
          simpa [g_slist_prepend, store, hne] using c
        · right
          simpa [g_slist_prepend, store, hne] using c
  · exact ⟨hnd, hsub, hfl⟩

theorem regInv_step (known : List Nat) (s : State) (h : RegInv known s) (op : Op)
    (ops : List Op) (hinit : initFirst known (op :: ops) = true) :
    ∃ known1, RegInv known1 (step s op) ∧ initFirst known1 ops = true ∧
      (∀ e, e ∈ known1 ↔ e ∈ initialised [op] ∨ e ∈ known) := by
  cases op with
  | init rc =>
    refine ⟨rc :: known, ?_, by simpa [initFirst] using hinit, by simp [initialised]⟩
    have h1 := regInv_unregister known s h rc
    exact regInv_same_flags _ _ _ h1 rfl (by
      intro e
      by_cases hne : e = rc <;>
        simp [step, ratecalc_init, ratecalc_reset, ratecalc_unregister, store, hne])
  | register rc =>
    simp only [initFirst, Bool.and_eq_true, decide_eq_true_eq] at hinit
    exact ⟨known, regInv_register known s h rc hinit.1, hinit.2, by simp [initialised]⟩
  | unregister rc =>
    simp only [initFirst, Bool.and_eq_true, decide_eq_true_eq] at hinit
    exact ⟨known, regInv_shrink known _ rc hinit.1 (regInv_unregister known s h rc), hinit.2,
      by simp [initialised]⟩
  | add rc b =>
    simp only [initFirst, Bool.and_eq_true, decide_eq_true_eq] at hinit
    refine ⟨known, regInv_same_flags _ _ _ h rfl ?_, hinit.2, by simp [initialised]⟩
    intro e
    by_cases hne : e = rc <;> simp [step, ratecalc_add, store, hne]
  | reset rc =>
    simp only [initFirst, Bool.and_eq_true, decide_eq_true_eq] at hinit
    refine ⟨known, regInv_same_flags _ _ _ h rfl ?_, hinit.2, by simp [initialised]⟩
    intro e
    by_cases hne : e = rc <;> simp [step, ratecalc_reset, store, hne]
  | tick =>
    refine ⟨known, regInv_same_flags _ _ _ h rfl ?_, by simpa [initFirst] using hinit,
      by simp [initialised]⟩
    intro e
    exact calc_list_isreg _ _ e

theorem initialised_cons (op : Op) (ops : List Op) (e : Nat) :
    e ∈ initialised (op :: ops) ↔ e ∈ initialised [op] ∨ e ∈ initialised ops := by
  cases op <;> simp [initialised]

theorem regInv_run : ∀ (ops : List Op) (known : List Nat) (s : State), RegInv known s →
    initFirst known ops = true →
    ∃ known1, RegInv known1 (run s ops) ∧ (∀ e, e ∈ known1 ↔ e ∈ initialised ops ∨ e ∈ known) := by
  intro ops
  induction ops with
  | nil => intro known s h _; exact ⟨known, h, by simp [initialised]⟩
  | cons op ops ih =>
    intro known s h hinit
    obtain ⟨k1, hk1, hi1, hm1⟩ := regInv_step known s h op ops hinit
    obtain ⟨k2, hk2, hm2⟩ := ih k1 (step s op) hk1 hi1
    refine ⟨k2, hk2, ?_⟩
    intro e
    have hc := initialised_cons op ops e
    have h2 := hm2 e
    have h1 := hm1 e
    tauto

/-- C5. Registration-flag invariant. From the empty registry (any memory content), after
any sequence of `ratecalc_init`, `ratecalc_register`, `ratecalc_unregister`,
`ratecalc_add`, `ratecalc_reset` and `ratecalc_calc` calls in which every entity is
initialised with `ratecalc_init` before its first other use, `ratecalc_list` contains no
entity more than once, and the `isreg` flag of each of these entities is 1 if and only if
the entity is an element of `ratecalc_list`. -/
theorem isreg_iff_registered (mem : Nat → ratecalc) (ops : List Op)
    (hinit : initFirst [] ops = true) :
    (run (start mem) ops).ratecalc_list.Nodup ∧
      ∀ e ∈ initialised ops,
        (((run (start mem) ops).mem e).isreg = 1 ↔ e ∈ (run (start mem) ops).ratecalc_list) := by
  obtain ⟨known, ⟨hnd, _, hfl⟩, hm⟩ := regInv_run ops [] (start mem)
    ⟨by simp [start], by simp [start], by simp⟩ hinit
  refine ⟨hnd, ?_⟩
  intro e he
  rcases hfl e ((hm e).mpr (Or.inl he)) with c | c
  · exact ⟨fun _ => c.1, fun _ => c.2⟩
  · constructor
    · intro h1
      rw [c.2] at h1
      exact absurd h1 (by decide)
    · intro h1
      exact absurd h1 c.1

/-- Witness: two entities in memory whose flags start at 1; entity 0 ends registered,
entity 1 unregistered. -/
theorem isreg_iff_registered_witness :
    initFirst [] [.init 0, .register 0, .init 1, .register 1, .register 0, .add 0 5, .tick,
        .unregister 1, .unregister 1] = true ∧
      (run (start (fun _ => ⟨7, 9, 1⟩)) [.init 0, .register 0, .init 1, .register 1, .register 0,
        .add 0 5, .tick, .unregister 1, .unregister 1]).ratecalc_list = [0] ∧
      (run (start (fun _ => ⟨7, 9, 1⟩)) [.init 0, .register 0, .init 1, .register 1, .register 0,
        .add 0 5, .tick, .unregister 1, .unregister 1]).ratecalc_list.Nodup :=
  ⟨by decide, by decide,
    (isreg_iff_registered (fun _ => ⟨7, 9, 1⟩) [.init 0, .register 0, .init 1, .register 1,
      .register 0, .add 0 5, .tick, .unregister 1, .unregister 1] (by decide)).1⟩

theorem unregister_not_mem (s : State) (hnd : s.ratecalc_list.Nodup) (rc : Nat) :
    rc ∉ (ratecalc_unregister s rc).ratecalc_list := by
  simp only [ratecalc_unregister, g_slist_remove_eq_erase]
  exact List.Nodup.not_mem_erase hnd

theorem adds_list (amounts : List Int) (rc : Nat) : ∀ s : State,
    (amounts.foldl (fun t a => ratecalc_add t rc a) s).ratecalc_list = s.ratecalc_list := by
  induction amounts with
  | nil => intro s; rfl
  | cons a amounts ih => intro s; rw [List.foldl_cons, ih]; rfl

theorem adds_other (amounts : List Int) (rc : Nat) : ∀ (s : State) (p : Nat), p ≠ rc →
    (amounts.foldl (fun t a => ratecalc_add t rc a) s).mem p = s.mem p := by
  induction amounts with
  | nil => intro s p _; rfl
  | cons a amounts ih =>
    intro s p hp
    rw [List.foldl_cons, ih _ p hp]
    simp [ratecalc_add, store, hp]

/-! ## Registration -/

/-- C6. `ratecalc_register` is idempotent: in every state and for every entity, a second
`ratecalc_register(e)` right after the first leaves the whole state (the list
`ratecalc_list` and every field of every entity) as the first call left it. -/
theorem ratecalc_register_idem (s : State) (rc : Nat) :
    ratecalc_register (ratecalc_register s rc) rc = ratecalc_register s rc := by
  by_cases h : (s.mem rc).isreg = 0
  · simp [ratecalc_register, h, store]
  · simp [ratecalc_register, h]

/-- C7. `ratecalc_unregister` removes and is idempotent: in every state reachable from
the empty registry, after `ratecalc_unregister(e)` the entity is not in `ratecalc_list`
and its `isreg` is 0, and a second `ratecalc_unregister(e)` changes nothing. -/
theorem ratecalc_unregister_idem (s : State) (hs : Reachable s) (rc : Nat) :
    rc ∉ (ratecalc_unregister s rc).ratecalc_list ∧
      ((ratecalc_unregister s rc).mem rc).isreg = 0 ∧
      ratecalc_unregister (ratecalc_unregister s rc) rc = ratecalc_unregister s rc := by
  have hnot := unregister_not_mem s (reachable_nodup s hs) rc
  refine ⟨hnot, by simp [ratecalc_unregister, store], ?_⟩
  have hl : g_slist_remove (ratecalc_unregister s rc).ratecalc_list rc
      = (ratecalc_unregister s rc).ratecalc_list := by
    rw [g_slist_remove_eq_erase]
    exact List.erase_of_not_mem hnot
  have hm : store (ratecalc_unregister s rc).mem rc
      { (ratecalc_unregister s rc).mem rc with isreg := 0 } = (ratecalc_unregister s rc).mem := by
    funext p
    by_cases hp : p = rc <;> simp [ratecalc_unregister, store, hp]
  show State.mk _ _ = _
  rw [hl, hm]

/-- Witness: entity 0 registered from the empty registry, then unregistered twice. -/
theorem ratecalc_unregister_idem_witness :
    Reachable (run (start zeroMem) [.init 0, .register 0]) ∧
      (0 : Nat) ∉ (ratecalc_unregister (run (start zeroMem) [.init 0, .register 0]) 0).ratecalc_list ∧
      ((ratecalc_unregister (run (start zeroMem) [.init 0, .register 0]) 0).mem 0).isreg = 0 ∧
      ratecalc_unregister (ratecalc_unregister (run (start zeroMem) [.init 0, .register 0]) 0) 0
        = ratecalc_unregister (run (start zeroMem) [.init 0, .register 0]) 0 :=
  ⟨⟨zeroMem, _, rfl⟩,
    ratecalc_unregister_idem (run (start zeroMem) [.init 0, .register 0]) ⟨zeroMem, _, rfl⟩ 0⟩

/-- C8. Unregistered entities are not sampled: in every reachable state, after
`ratecalc_unregister(e)` and any number of `ratecalc_add(e, a)`, a `ratecalc_calc()`
leaves every field of `e` as it was before the tick, and gives every other entity the
fields it would have had without those adds. -/
theorem ratecalc_unregistered_not_sampled (s : State) (hs : Reachable s) (rc : Nat)
    (amounts : List Int) :
    (ratecalc_calc (amounts.foldl (fun t a => ratecalc_add t rc a)
        (ratecalc_unregister s rc))).mem rc
      = (amounts.foldl (fun t a => ratecalc_add t rc a) (ratecalc_unregister s rc)).mem rc ∧
    ∀ p, p ≠ rc →
      (ratecalc_calc (amounts.foldl (fun t a => ratecalc_add t rc a)
        (ratecalc_unregister s rc))).mem p
      = (ratecalc_calc (ratecalc_unregister s rc)).mem p := by
  have hnot := unregister_not_mem s (reachable_nodup s hs) rc
  have hl := adds_list amounts rc (ratecalc_unregister s rc)
  constructor
  · simp only [ratecalc_calc, hl]
    exact calc_list_not_mem _ _ rc hnot
  · intro p hp
    simp only [ratecalc_calc, hl]
    exact calc_list_congr _ rc _ _ hnot
      (fun q hq => adds_other amounts rc (ratecalc_unregister s rc) q hq) p hp

/-- Witness: entities 0 and 1 registered, counter of 1 at 8; 0 is unregistered and gets
two more adds; the tick leaves 0 alone and halves 8 into the rate of 1. -/
theorem ratecalc_unregistered_not_sampled_witness :
    Reachable (run (start zeroMem) [.init 0, .register 0, .init 1, .register 1, .add 1 8]) ∧
      (ratecalc_calc ([5, 6].foldl (fun t a => ratecalc_add t 0 a) (ratecalc_unregister
        (run (start zeroMem) [.init 0, .register 0, .init 1, .register 1, .add 1 8]) 0))).mem 0
        = ⟨11, 0, 0⟩ ∧
      (ratecalc_calc ([5, 6].foldl (fun t a => ratecalc_add t 0 a) (ratecalc_unregister
        (run (start zeroMem) [.init 0, .register 0, .init 1, .register 1, .add 1 8]) 0))).mem 1
        = ⟨0, 4, 1⟩ :=
  have h := ratecalc_unregistered_not_sampled
    (run (start zeroMem) [.init 0, .register 0, .init 1, .register 1, .add 1 8])
    ⟨zeroMem, _, rfl⟩ 0 [5, 6]
  ⟨⟨zeroMem, _, rfl⟩, h.1.trans (by decide), (h.2 1 (by decide)).trans (by decide)⟩

/-- C9. Reset clears state: for an entity registered in any state (any counter, any rate;
the list naming no entity twice) and every amount `a`, after `ratecalc_reset` both
`ratecalc_get` and the counter are 0, and `ratecalc_reset; ratecalc_add(.., a);
ratecalc_calc()` leaves it with the rate and the counter that an entity freshly
initialised and registered (in any such state) has after
`ratecalc_add(.., a); ratecalc_calc()`. -/
theorem ratecalc_reset_fresh (s : State) (hs : s.ratecalc_list.Nodup) (rc : Nat)
    (hreg : rc ∈ s.ratecalc_list) (s1 : State) (hs1 : s1.ratecalc_list.Nodup) (rc1 : Nat)
    (a : Int) :
    ratecalc_get (ratecalc_reset s rc) rc = 0 ∧ ((ratecalc_reset s rc).mem rc).counter = 0 ∧
      ((ratecalc_calc (ratecalc_add (ratecalc_reset s rc) rc a)).mem rc).rate
        = ((ratecalc_calc (ratecalc_add
            (ratecalc_register (ratecalc_init s1 rc1) rc1) rc1 a)).mem rc1).rate ∧
      ((ratecalc_calc (ratecalc_add (ratecalc_reset s rc) rc a)).mem rc).counter
        = ((ratecalc_calc (ratecalc_add
            (ratecalc_register (ratecalc_init s1 rc1) rc1) rc1 a)).mem rc1).counter := by
  obtain ⟨hnd1, hin1, hmem1⟩ := init_register_state s1 hs1 rc1
  generalize ratecalc_register (ratecalc_init s1 rc1) rc1 = t at hnd1 hin1 hmem1
  rw [calc_mem_of_nodup (ratecalc_add (ratecalc_reset s rc) rc a) hs rc hreg,
    calc_mem_of_nodup (ratecalc_add t rc1 a) hnd1 rc1 hin1]
  simp [ratecalc_get, ratecalc_reset, ratecalc_add, store, hmem1]

/-- Witness: entity 0 registered with counter 7 and rate 3 (after one tick and an add),
compared with entity 1 initialised in the empty registry; amount 10. -/
theorem ratecalc_reset_fresh_witness :
    (run (start zeroMem) [.init 0, .register 0, .add 0 6, .tick, .add 0 7]).ratecalc_list.Nodup ∧
      (0 : Nat) ∈
        (run (start zeroMem) [.init 0, .register 0, .add 0 6, .tick, .add 0 7]).ratecalc_list ∧
      (start zeroMem).ratecalc_list.Nodup ∧
      ((ratecalc_calc (ratecalc_add (ratecalc_reset
        (run (start zeroMem) [.init 0, .register 0, .add 0 6, .tick, .add 0 7]) 0) 0 10)).mem 0).rate
        = ((ratecalc_calc (ratecalc_add
            (ratecalc_register (ratecalc_init (start zeroMem) 1) 1) 1 10)).mem 1).rate :=
  ⟨by decide, by decide, by decide,
    (ratecalc_reset_fresh (run (start zeroMem) [.init 0, .register 0, .add 0 6, .tick, .add 0 7])
      (by decide) 0 (by decide) (start zeroMem) (by decide) 1 10).2.2.1⟩

/-- Counterexample to "`ratecalc_init` leaves `ratecalc_list` as it was": on a registered
entity the call unlinks it, here turning the list `[0]` into the empty list. -/
theorem ratecalc_init_changes_list :
    (run (start zeroMem) [.init 0, .register 0]).ratecalc_list = [0] ∧
      (ratecalc_init (run (start zeroMem) [.init 0, .register 0]) 0).ratecalc_list = [] ∧
      (ratecalc_init (run (start zeroMem) [.init 0, .register 0]) 0).ratecalc_list
        ≠ (run (start zeroMem) [.init 0, .register 0]).ratecalc_list := by
  decide

/-- C10, amended. `ratecalc_init(e)` sets the counter, the rate and `isreg` of `e` to 0,
changes no field of any other entity, and unlinks `e` from `ratecalc_list`: the list
after the call is the list before it without the first occurrence of `e`. So a registered
`e` leaves the list, which gets one element shorter and keeps every other entity, and the
list is the same as before if and only if `e` was not in it. -/
theorem ratecalc_init_effect (s : State) (rc : Nat) :
    (ratecalc_init s rc).mem rc = ⟨0, 0, 0⟩ ∧
      (∀ p, p ≠ rc → (ratecalc_init s rc).mem p = s.mem p) ∧
      (ratecalc_init s rc).ratecalc_list = s.ratecalc_list.erase rc ∧
      ((ratecalc_init s rc).ratecalc_list = s.ratecalc_list ↔ rc ∉ s.ratecalc_list) ∧
      (rc ∈ s.ratecalc_list →
        (ratecalc_init s rc).ratecalc_list.length + 1 = s.ratecalc_list.length) ∧
      (∀ p, p ≠ rc → (p ∈ (ratecalc_init s rc).ratecalc_list ↔ p ∈ s.ratecalc_list)) ∧
      (s.ratecalc_list.Nodup → rc ∉ (ratecalc_init s rc).ratecalc_list) := by
  have hlist : (ratecalc_init s rc).ratecalc_list = s.ratecalc_list.erase rc := by
    show g_slist_remove s.ratecalc_list rc = s.ratecalc_list.erase rc
    exact g_slist_remove_eq_erase _ _
  have hlen : rc ∈ s.ratecalc_list →
      (ratecalc_init s rc).ratecalc_list.length + 1 = s.ratecalc_list.length := by
    intro h
    have hpos : 0 < s.ratecalc_list.length := List.length_pos_of_mem h
    rw [hlist, List.length_erase_of_mem h]
    omega
  refine ⟨by simp [ratecalc_init, ratecalc_reset, ratecalc_unregister, store], ?_, hlist,
    ⟨?_, ?_⟩, hlen, ?_, ?_⟩
  · intro p hp
    simp [ratecalc_init, ratecalc_reset, ratecalc_unregister, store, hp]
  · intro heq hin
    have h := hlen hin
    rw [heq] at h
    omega
  · intro h
    rw [hlist]
    exact List.erase_of_not_mem h
  · intro p hp
    rw [hlist]
    exact List.mem_erase_of_ne hp
  · intro hnd
    rw [hlist]
    exact hnd.not_mem_erase

/-- Witness: in the state where only entity 0 is registered, `ratecalc_init` of entity 0
empties the list and `ratecalc_init` of entity 1 leaves it as it is. -/
theorem ratecalc_init_effect_witness :
    (0 : Nat) ∈ (run (start zeroMem) [.init 0, .register 0]).ratecalc_list ∧
      (run (start zeroMem) [.init 0, .register 0]).ratecalc_list.Nodup ∧
      (ratecalc_init (run (start zeroMem) [.init 0, .register 0]) 0).ratecalc_list
        ≠ (run (start zeroMem) [.init 0, .register 0]).ratecalc_list ∧
      (ratecalc_init (run (start zeroMem) [.init 0, .register 0]) 0).ratecalc_list.length + 1
        = (run (start zeroMem) [.init 0, .register 0]).ratecalc_list.length ∧
      (0 : Nat) ∉
        (ratecalc_init (run (start zeroMem) [.init 0, .register 0]) 0).ratecalc_list ∧
      (1 : Nat) ∉ (run (start zeroMem) [.init 0, .register 0]).ratecalc_list ∧
      (1 : Nat) ≠ 0 ∧
      (ratecalc_init (run (start zeroMem) [.init 0, .register 0]) 1).ratecalc_list
        = (run (start zeroMem) [.init 0, .register 0]).ratecalc_list ∧
      (ratecalc_init (run (start zeroMem) [.init 0, .register 0]) 0).mem 1
        = (run (start zeroMem) [.init 0, .register 0]).mem 1 :=
  have h0 := ratecalc_init_effect (run (start zeroMem) [.init 0, .register 0]) 0
  have h1 := ratecalc_init_effect (run (start zeroMem) [.init 0, .register 0]) 1
  ⟨by decide, by decide, fun e => h0.2.2.2.1.mp e (by decide), h0.2.2.2.2.1 (by decide),
    h0.2.2.2.2.2.2 (by decide), by decide, by decide, h1.2.2.2.1.mpr (by decide),
    h0.2.1 1 (by decide)⟩

/-! ## The counter and the rate over a sequence of calls -/

theorem tdiv_two_cases (x : Int) :
    (0 ≤ x ∧ x.tdiv 2 = x / 2) ∨ (x < 0 ∧ x.tdiv 2 = -((-x) / 2)) := by
  rcases Int.lt_or_le x 0 with h | h
  · right
    refine ⟨h, ?_⟩
    have h3 : x = -(-x) := by ring
    rw [h3, Int.neg_tdiv, Int.tdiv_eq_ediv (by omega) (by norm_num)]
    simp
  · exact Or.inl ⟨h, Int.tdiv_eq_ediv h (by norm_num)⟩

theorem smooth_of_range (r d : Int) (hr0 : -2 ^ 31 ≤ r) (hr1 : r < 2 ^ 31) (hd0 : -2 ^ 31 ≤ d)
    (hd1 : d < 2 ^ 31) (h0 : -2 ^ 31 ≤ r - d) (h1 : r - d < 2 ^ 31) :
    smooth r d = d + (r - d).tdiv 2 := by
  unfold smooth
  rw [wrapInt_of_range (r - d) h0 h1]
  have hc := tdiv_two_cases (r - d)
  rw [wrapInt_of_range ((r - d).tdiv 2) (by omega) (by omega),
    wrapInt_of_range _ (by omega) (by omega)]

theorem smooth_between (r d : Int) (hr0 : -2 ^ 31 ≤ r) (hr1 : r < 2 ^ 31) (hd0 : -2 ^ 31 ≤ d)
    (hd1 : d < 2 ^ 31) (h0 : -2 ^ 31 ≤ r - d) (h1 : r - d < 2 ^ 31) :
    min r d ≤ smooth r d ∧ smooth r d ≤ max r d := by
  rw [smooth_of_range r d hr0 hr1 hd0 hd1 h0 h1]
  have hc := tdiv_two_cases (r - d)
  constructor
  · rcases hc with ⟨_, e⟩ | ⟨_, e⟩ <;> rw [e] <;> omega
  · rcases hc with ⟨_, e⟩ | ⟨_, e⟩ <;> rw [e] <;> omega

theorem calc_list_counter (l : List Nat) : ∀ (mem : Nat → ratecalc) (p : Nat),
    (l.foldl calc_node mem p).counter = if p ∈ l then 0 else (mem p).counter := by
  induction l with
  | nil => intro mem p; simp
  | cons x l ih =>
    intro mem p
    rw [List.foldl_cons, ih]
    by_cases hl : p ∈ l
    · simp [hl]
    · by_cases hx : p = x
      · subst hx
        simp [hl, calc_node, store]
      · simp [hl, hx, calc_node, store]

theorem addsFit_take (rc : Nat) : ∀ (ops : List Op) (s : State) (n : Nat),
    addsFit rc s ops = true → addsFit rc s (ops.take n) = true := by
  intro ops
  induction ops with
  | nil => intro s n h; simpa using h
  | cons op ops ih =>
    intro s n h
    cases n with
    | zero => simp [addsFit]
    | succ n =>
      rw [List.take_succ_cons]
      cases op with
      | add e b =>
        simp only [addsFit, Bool.and_eq_true] at h ⊢
        exact ⟨h.1, ih _ n h.2⟩
      | init e => simp only [addsFit] at h ⊢; exact ih _ n h
      | register e => simp only [addsFit] at h ⊢; exact ih _ n h
      | unregister e => simp only [addsFit] at h ⊢; exact ih _ n h
      | reset e => simp only [addsFit] at h ⊢; exact ih _ n h
      | tick => simp only [addsFit] at h ⊢; exact ih _ n h

theorem addsFit_cons (rc : Nat) (s : State) (op : Op) (ops : List Op)
    (h : addsFit rc s (op :: ops) = true) :
    addsFit rc (step s op) ops = true ∧
      ∀ b, op = .add rc b → 0 ≤ b ∧ (s.mem rc).counter + b < 2 ^ 31 := by
  cases op with
  | add e b =>
    simp only [addsFit, Bool.and_eq_true, Bool.or_eq_true, decide_eq_true_eq] at h
    refine ⟨h.2, ?_⟩
    intro b1 hb
    injection hb with he hb1
    subst he hb1
    rcases h.1 with c | c
    · exact absurd rfl c
    · exact c
  | init e => exact ⟨by simpa [addsFit] using h, fun b hb => by cases hb⟩
  | register e => exact ⟨by simpa [addsFit] using h, fun b hb => by cases hb⟩
  | unregister e => exact ⟨by simpa [addsFit] using h, fun b hb => by cases hb⟩
  | reset e => exact ⟨by simpa [addsFit] using h, fun b hb => by cases hb⟩
  | tick => exact ⟨by simpa [addsFit] using h, fun b hb => by cases hb⟩

theorem step_counter_nonneg (s : State) (rc : Nat) (op : Op) (h0 : 0 ≤ (s.mem rc).counter)
    (hc1 : (s.mem rc).counter < 2 ^ 31)
    (hfit : ∀ b, op = .add rc b → 0 ≤ b ∧ (s.mem rc).counter + b < 2 ^ 31) :
    0 ≤ ((step s op).mem rc).counter ∧ ((step s op).mem rc).counter < 2 ^ 31 := by
  cases op with
  | init e =>
    by_cases he : rc = e
    · subst he
      simp [step, ratecalc_init, ratecalc_reset, ratecalc_unregister, store]
    · simpa [step, ratecalc_init, ratecalc_reset, ratecalc_unregister, store, he] using ⟨h0, hc1⟩
  | register e =>
    simp only [step, ratecalc_register]
    split
    · by_cases he : rc = e
      · subst he; simpa [store] using ⟨h0, hc1⟩
      · simpa [store, he] using ⟨h0, hc1⟩
    · exact ⟨h0, hc1⟩
  | unregister e =>
    by_cases he : rc = e
    · subst he; simpa [step, ratecalc_unregister, store] using ⟨h0, hc1⟩
    · simpa [step, ratecalc_unregister, store, he] using ⟨h0, hc1⟩
  | add e b =>
    by_cases he : rc = e
    · subst he
      obtain ⟨hb, hlt⟩ := hfit b rfl
      have hw := wrapInt_of_range ((s.mem rc).counter + b) (by omega) hlt
      simp only [step, ratecalc_add, store_same, hw]
      omega
    · simpa [step, ratecalc_add, store, he] using ⟨h0, hc1⟩
  | reset e =>
    by_cases he : rc = e
    · subst he
      simp [step, ratecalc_reset, store]
    · simpa [step, ratecalc_reset, store, he] using ⟨h0, hc1⟩
  | tick =>
    simp only [step, ratecalc_calc, calc_list_counter]
    split
    · simp
    · exact ⟨h0, hc1⟩

theorem run_counter_nonneg (rc : Nat) : ∀ (ops : List Op) (s : State),
    0 ≤ (s.mem rc).counter → (s.mem rc).counter < 2 ^ 31 → addsFit rc s ops = true →
    0 ≤ ((run s ops).mem rc).counter ∧ ((run s ops).mem rc).counter < 2 ^ 31 := by
  intro ops
  induction ops with
  | nil => intro s h0 h1 _; exact ⟨h0, h1⟩
  | cons op ops ih =>
    intro s h0 h1 hfit
    obtain ⟨hrest, hop⟩ := addsFit_cons rc s op ops hfit
    obtain ⟨g0, g1⟩ := step_counter_nonneg s rc op h0 h1 hop
    exact ih (step s op) g0 g1 hrest

/-- Counterexample to "the counter is never negative when every amount is non-negative":
`ratecalc_add` of `INT_MAX` and then of 1 wraps the counter to `INT_MIN`. -/
theorem counter_wraps_negative :
    ((run (start zeroMem) [.init 0, .register 0, .add 0 2147483647, .add 0 1]).mem 0).counter
        = -2147483648 ∧
      ¬ 0 ≤
        ((run (start zeroMem) [.init 0, .register 0, .add 0 2147483647, .add 0 1]).mem 0).counter := by
  decide

/-- C11, amended. With the counter a 32-bit signed `int` (`g_atomic_int_add` wrapping
modulo `2 ^ 32`): from a counter that is a non-negative `int` (as `ratecalc_init` and
`ratecalc_reset` leave it), after every operation of every sequence of `ratecalc_init`,
`ratecalc_register`, `ratecalc_unregister`, `ratecalc_reset`, `ratecalc_calc` and
`ratecalc_add` in which every amount added to the entity is non-negative and no add takes
its counter beyond `INT_MAX`, the counter is `>= 0`. -/
theorem counter_nonneg (s : State) (rc : Nat) (ops : List Op)
    (h0 : 0 ≤ (s.mem rc).counter) (h1 : (s.mem rc).counter < 2 ^ 31)
    (hfit : addsFit rc s ops = true) (n : Nat) :
    0 ≤ ((run s (ops.take n)).mem rc).counter :=
  (run_counter_nonneg rc (ops.take n) s h0 h1 (addsFit_take rc ops s n hfit)).1

/-- Witness: adds of `INT_MAX - 5` and 5 with a tick in between and after. -/
theorem counter_nonneg_witness :
    (0 : Int) ≤ ((ratecalc_register (ratecalc_init (start zeroMem) 0) 0).mem 0).counter ∧
      addsFit 0 (ratecalc_register (ratecalc_init (start zeroMem) 0) 0)
        [.add 0 2147483642, .add 0 5, .tick, .add 0 5, .tick] = true ∧
      (0 : Int) ≤ ((run (ratecalc_register (ratecalc_init (start zeroMem) 0) 0)
        ([Op.add 0 2147483642, .add 0 5, .tick, .add 0 5, .tick].take 2)).mem 0).counter :=
  ⟨by decide, by decide,
    counter_nonneg (ratecalc_register (ratecalc_init (start zeroMem) 0) 0) 0
      [.add 0 2147483642, .add 0 5, .tick, .add 0 5, .tick] (by decide) (by decide) (by decide) 2⟩

theorem sampled_cons (rc : Nat) (s : State) (op : Op) (ops : List Op) :
    sampled rc s (op :: ops) = sampled rc s [op] ++ sampled rc (step s op) ops := by
  cases op with
  | tick =>
    simp only [sampled]
    split <;> simp
  | init e => simp [sampled]
  | register e => simp [sampled]
  | unregister e => simp [sampled]
  | add e b => simp [sampled]
  | reset e => simp [sampled]

theorem step_rate_bounded (s : State) (rc : Nat) (op : Op) (m : Int)
    (hnd : s.ratecalc_list.Nodup)
    (hc0 : 0 ≤ (s.mem rc).counter) (hc1 : (s.mem rc).counter < 2 ^ 31)
    (hr0 : 0 ≤ (s.mem rc).rate) (hr1 : (s.mem rc).rate ≤ m) (hm : m < 2 ^ 31) :
    0 ≤ ((step s op).mem rc).rate ∧
      ((step s op).mem rc).rate ≤ (sampled rc s [op]).foldl max m ∧
      (sampled rc s [op]).foldl max m < 2 ^ 31 := by
  cases op with
  | init e =>
    by_cases he : rc = e
    · subst he
      simp only [sampled, List.foldl_nil]
      refine ⟨?_, ?_, hm⟩ <;>
        simp [step, ratecalc_init, ratecalc_reset, ratecalc_unregister, store]
      omega
    · simpa [sampled, step, ratecalc_init, ratecalc_reset, ratecalc_unregister, store, he]
        using ⟨hr0, hr1, hm⟩
  | register e =>
    simp only [sampled, List.foldl_nil, step, ratecalc_register]
    split
    · by_cases he : rc = e
      · subst he; simpa [store] using ⟨hr0, hr1, hm⟩
      · simpa [store, he] using ⟨hr0, hr1, hm⟩
    · exact ⟨hr0, hr1, hm⟩
  | unregister e =>
    by_cases he : rc = e
    · subst he; simpa [sampled, step, ratecalc_unregister, store] using ⟨hr0, hr1, hm⟩
    · simpa [sampled, step, ratecalc_unregister, store, he] using ⟨hr0, hr1, hm⟩
  | add e b =>
    by_cases he : rc = e
    · subst he; simpa [sampled, step, ratecalc_add, store] using ⟨hr0, hr1, hm⟩
    · simpa [sampled, step, ratecalc_add, store, he] using ⟨hr0, hr1, hm⟩
  | reset e =>
    by_cases he : rc = e
    · subst he
      simp only [sampled, List.foldl_nil]
      refine ⟨?_, ?_, hm⟩ <;> simp [step, ratecalc_reset, store]
      omega
    · simpa [sampled, step, ratecalc_reset, store, he] using ⟨hr0, hr1, hm⟩
  | tick =>
    by_cases hin : rc ∈ s.ratecalc_list
    · have hb := smooth_between (s.mem rc).rate (s.mem rc).counter (by omega) (by omega)
        (by omega) hc1 (by omega) (by omega)
      have hmem := calc_mem_of_nodup s hnd rc hin
      simp only [sampled, hin, if_true, List.foldl_cons, List.foldl_nil, step, hmem]
      refine ⟨?_, ?_, ?_⟩
      · exact le_trans (le_min hr0 hc0) hb.1
      · exact le_trans hb.2 (max_le_max hr1 (le_refl _))
      · exact max_lt hm hc1
    · have hmem : (ratecalc_calc s).mem rc = s.mem rc := calc_list_not_mem _ _ rc hin
      simp only [sampled, hin, if_false, List.foldl_nil, step, hmem]
      exact ⟨hr0, hr1, hm⟩

theorem run_rate_bounded (rc : Nat) : ∀ (ops : List Op) (s : State) (m : Int),
    (s.ratecalc_list.Nodup ∧ ∀ e ∈ s.ratecalc_list, (s.mem e).isreg ≠ 0) →
    0 ≤ (s.mem rc).counter → (s.mem rc).counter < 2 ^ 31 →
    0 ≤ (s.mem rc).rate → (s.mem rc).rate ≤ m → m < 2 ^ 31 → addsFit rc s ops = true →
    0 ≤ ((run s ops).mem rc).rate ∧
      ((run s ops).mem rc).rate ≤ (sampled rc s ops).foldl max m := by
  intro ops
  induction ops with
  | nil => intro s m _ _ _ hr0 hr1 _ _; exact ⟨hr0, hr1⟩
  | cons op ops ih =>
    intro s m hinv hc0 hc1 hr0 hr1 hm hfit
    obtain ⟨hrest, hop⟩ := addsFit_cons rc s op ops hfit
    obtain ⟨g0, g1⟩ := step_counter_nonneg s rc op hc0 hc1 hop
    obtain ⟨k0, k1, k2⟩ := step_rate_bounded s rc op m hinv.1 hc0 hc1 hr0 hr1 hm
    have h := ih (step s op) _ (step_nodup s op hinv) g0 g1 k0 k1 k2 hrest
    rw [sampled_cons, List.foldl_append]
    exact h

/-- Counterexample to "with non-negative amounts `ratecalc_get` is never negative": two
adds of `INT_MAX` wrap the counter to -2, and the tick turns the rate 0 into -1. -/
theorem rate_negative_after_wrap :
    ratecalc_get (run (start zeroMem)
        [.init 0, .register 0, .add 0 2147483647, .add 0 2147483647, .tick]) 0 = -1 ∧
      sampled 0 (start zeroMem)
        [.init 0, .register 0, .add 0 2147483647, .add 0 2147483647, .tick] = [-2] := by
  decide

/-- C18, amended. The smoothed rate never overshoots: for a registered entity with
pre-tick rate `r` and sampled delta `d` (`int`s with no overflow in `r - d`) the rate
written by `ratecalc_calc` lies between `min(r, d)` and `max(r, d)`. Consequently, if the
rate starts at 0, every amount added is non-negative and no add takes the counter beyond
`INT_MAX`, then after every operation, ticks included, `ratecalc_get` is `>= 0` and at
most the largest delta sampled so far. -/
theorem rate_never_overshoots (s : State) (hs : Reachable s) (rc : Nat) :
    (rc ∈ s.ratecalc_list →
      -2 ^ 31 ≤ (s.mem rc).rate → (s.mem rc).rate < 2 ^ 31 →
      -2 ^ 31 ≤ (s.mem rc).counter → (s.mem rc).counter < 2 ^ 31 →
      -2 ^ 31 ≤ (s.mem rc).rate - (s.mem rc).counter →
      (s.mem rc).rate - (s.mem rc).counter < 2 ^ 31 →
      min (s.mem rc).rate (s.mem rc).counter ≤ ratecalc_get (ratecalc_calc s) rc ∧
        ratecalc_get (ratecalc_calc s) rc ≤ max (s.mem rc).rate (s.mem rc).counter) ∧
    ∀ ops : List Op, (s.mem rc).rate = 0 →
      0 ≤ (s.mem rc).counter → (s.mem rc).counter < 2 ^ 31 → addsFit rc s ops = true →
      ∀ n, 0 ≤ ratecalc_get (run s (ops.take n)) rc ∧
        ratecalc_get (run s (ops.take n)) rc ≤ largest (sampled rc s (ops.take n)) := by
  have hinv : s.ratecalc_list.Nodup ∧ ∀ e ∈ s.ratecalc_list, (s.mem e).isreg ≠ 0 := by
    obtain ⟨mem, ops, rfl⟩ := hs
    exact run_nodup ops (start mem) ⟨by simp [start], by simp [start]⟩
  constructor
  · intro hin hr0 hr1 hd0 hd1 h0 h1
    unfold ratecalc_get
    rw [calc_mem_of_nodup s hinv.1 rc hin]
    exact smooth_between _ _ hr0 hr1 hd0 hd1 h0 h1
  · intro ops hrate hc0 hc1 hfit n
    exact run_rate_bounded rc (ops.take n) s 0 hinv hc0 hc1 (by omega) (by omega) (by norm_num)
      (addsFit_take rc ops s n hfit)

/-- Witness: deltas 8 and 2 sampled for entity 0; the rate after the two ticks is 4, then
3, between 0 and the largest delta 8; the single tick from rate 0 and counter 8 gives 4. -/
theorem rate_never_overshoots_witness :
    Reachable (run (start zeroMem) [.init 0, .register 0, .add 0 8]) ∧
      addsFit 0 (run (start zeroMem) [.init 0, .register 0, .add 0 8])
        [.tick, .add 0 2, .tick] = true ∧
      ratecalc_get (run (run (start zeroMem) [.init 0, .register 0, .add 0 8])
        ([Op.tick, .add 0 2, .tick].take 3)) 0
        ≤ largest (sampled 0 (run (start zeroMem) [.init 0, .register 0, .add 0 8])
          ([Op.tick, .add 0 2, .tick].take 3)) ∧
      ratecalc_get (ratecalc_calc (run (start zeroMem) [.init 0, .register 0, .add 0 8])) 0 ≤
        max ((run (start zeroMem) [.init 0, .register 0, .add 0 8]).mem 0).rate
          ((run (start zeroMem) [.init 0, .register 0, .add 0 8]).mem 0).counter :=
  have h := rate_never_overshoots (run (start zeroMem) [.init 0, .register 0, .add 0 8])
    ⟨zeroMem, _, rfl⟩ 0
  ⟨⟨zeroMem, _, rfl⟩, by decide,
    (h.2 [.tick, .add 0 2, .tick] (by decide) (by decide) (by decide) (by decide) 3).2,
    (h.1 (by decide) (by decide) (by decide) (by decide) (by decide) (by decide) (by decide)).2⟩

/-! ## Convergence of the smoothing -/

theorem natCast_tdiv_two_pow (m n : Nat) : (m : Int).tdiv (2 ^ n) = ((m / 2 ^ n : Nat) : Int) := by
  have h : (2 : Int) ^ n = ((2 ^ n : Nat) : Int) := by push_cast; rfl
  rw [h]
  exact (Int.ofNat_tdiv m (2 ^ n)).symm

theorem tdiv_two_pow_closed (x : Int) (n : Nat) :
    x.tdiv (2 ^ n) = if 0 ≤ x then ((x.natAbs / 2 ^ n : Nat) : Int)
      else -((x.natAbs / 2 ^ n : Nat) : Int) := by
  split
  · rename_i h
    have e : x = (x.natAbs : Int) := (Int.natAbs_of_nonneg h).symm
    conv_lhs => rw [e]
    exact natCast_tdiv_two_pow _ _
  · rename_i h
    have e : x = -(x.natAbs : Int) := by omega
    conv_lhs => rw [e]
    rw [Int.neg_tdiv, natCast_tdiv_two_pow]

theorem tdiv_two_pow_succ (x : Int) (n : Nat) :
    (x.tdiv (2 ^ n)).tdiv 2 = x.tdiv (2 ^ (n + 1)) := by
  have hdiv : x.natAbs / 2 ^ n / 2 = x.natAbs / 2 ^ (n + 1) := by
    rw [Nat.div_div_eq_div_mul, pow_succ]
  have h1 := natCast_tdiv_two_pow (x.natAbs / 2 ^ n) 1
  rw [pow_one, pow_one, hdiv] at h1
  rw [tdiv_two_pow_closed x n, tdiv_two_pow_closed x (n + 1)]
  split
  · exact h1
  · rw [Int.neg_tdiv, h1]

theorem tdiv_two_pow_natAbs (x : Int) (n : Nat) :
    (x.tdiv (2 ^ n)).natAbs = x.natAbs / 2 ^ n := by
  rw [tdiv_two_pow_closed]
  split
  · rw [Int.natAbs_ofNat]
  · rw [Int.natAbs_neg, Int.natAbs_ofNat]

theorem tdiv_two_pow_bounds (x : Int) (n : Nat) :
    (0 ≤ x → 0 ≤ x.tdiv (2 ^ n) ∧ x.tdiv (2 ^ n) ≤ x) ∧
      (x ≤ 0 → x ≤ x.tdiv (2 ^ n) ∧ x.tdiv (2 ^ n) ≤ 0) := by
  have hle : x.natAbs / 2 ^ n ≤ x.natAbs := Nat.div_le_self _ _
  rw [tdiv_two_pow_closed]
  generalize x.natAbs / 2 ^ n = q at hle ⊢
  constructor
  · intro h
    rw [if_pos h]
    omega
  · intro h
    split
    · rename_i h2
      have hx : x = 0 := by omega
      subst hx
      have hq : q = 0 := by simpa using hle
      subst hq
      simp
    · omega

theorem ticksWith_list (rc : Nat) (d : Int) (s : State) :
    ∀ n, (ticksWith rc d n s).ratecalc_list = s.ratecalc_list := by
  intro n
  induction n with
  | zero => rfl
  | succ n ih => simpa [ticksWith, ratecalc_calc, ratecalc_add] using ih

theorem ticksWith_mem (s : State) (hs : s.ratecalc_list.Nodup) (rc : Nat)
    (hreg : rc ∈ s.ratecalc_list) (d : Int) (hc : (s.mem rc).counter = 0)
    (hd0 : -2 ^ 31 ≤ d) (hd1 : d < 2 ^ 31)
    (hr0 : -2 ^ 31 ≤ (s.mem rc).rate) (hr1 : (s.mem rc).rate < 2 ^ 31)
    (h0 : -2 ^ 31 ≤ (s.mem rc).rate - d) (h1 : (s.mem rc).rate - d < 2 ^ 31) :
    ∀ n, (ticksWith rc d n s).mem rc =
      { s.mem rc with counter := 0, rate := d + ((s.mem rc).rate - d).tdiv (2 ^ n) } := by
  intro n
  induction n with
  | zero =>
    simp only [ticksWith, pow_zero, Int.tdiv_one]
    rw [← hc]
    simp
  | succ n ih =>
    have hl := ticksWith_list rc d s n
    have hb := tdiv_two_pow_bounds ((s.mem rc).rate - d) n
    have hrange : -2 ^ 31 ≤ ((s.mem rc).rate - d).tdiv (2 ^ n) ∧
        ((s.mem rc).rate - d).tdiv (2 ^ n) < 2 ^ 31 ∧
        -2 ^ 31 ≤ d + ((s.mem rc).rate - d).tdiv (2 ^ n) ∧
        d + ((s.mem rc).rate - d).tdiv (2 ^ n) < 2 ^ 31 := by
      rcases Int.le_total 0 ((s.mem rc).rate - d) with h | h
      · have := hb.1 h
        omega
      · have := hb.2 h
        omega
    simp only [ticksWith]
    rw [calc_mem_of_nodup (ratecalc_add (ticksWith rc d n s) rc d) (by rw [← hl] at hs; exact hs)
      rc (by rw [← hl] at hreg; exact hreg)]
    simp only [ratecalc_add, store_same, ih, zero_add]
    rw [wrapInt_of_range d hd0 hd1,
      smooth_of_range _ d hrange.2.2.1 hrange.2.2.2 hd0 hd1 (by omega) (by omega)]
    rw [show d + ((s.mem rc).rate - d).tdiv (2 ^ n) - d = ((s.mem rc).rate - d).tdiv (2 ^ n) by ring,
      tdiv_two_pow_succ]

/-- Counterexample to the closed form for every starting rate: non-negative adds that wrap
the counter leave entity 0 with rate -2; sampling the delta `INT_MAX` then overflows
`rate - cur`, and one tick gives -1073741826, not `d + trunc((r0 - d) / 2)` = 1073741823. -/
theorem smoothing_overflows :
    ((run (start zeroMem) [.init 0, .register 0, .add 0 2147483647, .add 0 2147483647, .tick,
        .add 0 2147483647, .add 0 2147483647, .tick]).mem 0) = ⟨0, -2, 1⟩ ∧
      ratecalc_get (ticksWith 0 2147483647 1
        (run (start zeroMem) [.init 0, .register 0, .add 0 2147483647, .add 0 2147483647, .tick,
          .add 0 2147483647, .add 0 2147483647, .tick])) 0 = -1073741826 ∧
      (2147483647 : Int) + ((-2 : Int) - 2147483647).tdiv (2 ^ 1) = 1073741823 := by
  decide

/-- C12, amended. Convergence of the smoothing filter. For a registered entity with rate
`r0`, when every tick samples the same delta `d` (`int`s with no overflow in `r0 - d`):
after `n` ticks the rate is `d + trunc((r0 - d) / 2 ^ n)`; `|rate - d|` does not increase
from one tick to the next; the rate equals `d` exactly when `2 ^ n > |r0 - d|`, and then
on every later tick too; for non-negative `r0` and `d` that is the case from tick 31 on. -/
theorem smoothing_converges (s : State) (hs : s.ratecalc_list.Nodup) (rc : Nat)
    (hreg : rc ∈ s.ratecalc_list) (d : Int) (hc : (s.mem rc).counter = 0)
    (hd0 : -2 ^ 31 ≤ d) (hd1 : d < 2 ^ 31)
    (hr0 : -2 ^ 31 ≤ (s.mem rc).rate) (hr1 : (s.mem rc).rate < 2 ^ 31)
    (h0 : -2 ^ 31 ≤ (s.mem rc).rate - d) (h1 : (s.mem rc).rate - d < 2 ^ 31) (n : Nat) :
    ratecalc_get (ticksWith rc d n s) rc = d + ((s.mem rc).rate - d).tdiv (2 ^ n) ∧
      (ratecalc_get (ticksWith rc d (n + 1) s) rc - d).natAbs
        ≤ (ratecalc_get (ticksWith rc d n s) rc - d).natAbs ∧
      (ratecalc_get (ticksWith rc d n s) rc = d ↔ ((s.mem rc).rate - d).natAbs < 2 ^ n) ∧
      (ratecalc_get (ticksWith rc d n s) rc = d →
        ∀ m, n ≤ m → ratecalc_get (ticksWith rc d m s) rc = d) ∧
      (0 ≤ (s.mem rc).rate → 0 ≤ d → ∀ m, 31 ≤ m → ratecalc_get (ticksWith rc d m s) rc = d) := by
  have hget : ∀ k, ratecalc_get (ticksWith rc d k s) rc
      = d + ((s.mem rc).rate - d).tdiv (2 ^ k) := by
    intro k
    unfold ratecalc_get
    rw [ticksWith_mem s hs rc hreg d hc hd0 hd1 hr0 hr1 h0 h1 k]
  have hiff : ∀ k, ratecalc_get (ticksWith rc d k s) rc = d
      ↔ ((s.mem rc).rate - d).natAbs < 2 ^ k := by
    intro k
    rw [hget k]
    have hna := tdiv_two_pow_natAbs ((s.mem rc).rate - d) k
    have hz : ((s.mem rc).rate - d).natAbs / 2 ^ k = 0 ↔ ((s.mem rc).rate - d).natAbs < 2 ^ k :=
      Nat.div_eq_zero_iff (Nat.two_pow_pos k)
    rw [← hz, ← hna]
    omega
  have hmono : ∀ k m, k ≤ m → (2 : Nat) ^ k ≤ 2 ^ m :=
    fun k m h => Nat.pow_le_pow_right (by norm_num) h
  refine ⟨hget n, ?_, hiff n, ?_, ?_⟩
  · rw [hget, hget]
    simp only [add_sub_cancel_left, tdiv_two_pow_natAbs]
    rw [pow_succ, ← Nat.div_div_eq_div_mul]
    exact Nat.div_le_self _ _
  · intro h m hm
    exact (hiff m).mpr (lt_of_lt_of_le ((hiff n).mp h) (hmono n m hm))
  · intro hr hd m hm
    apply (hiff m).mpr
    have h31 : ((s.mem rc).rate - d).natAbs < 2 ^ 31 := by omega
    exact lt_of_lt_of_le h31 (hmono 31 m hm)

/-- Witness: rate 100 (left by an add of 200 and a tick), the delta 10 sampled 7 times;
`2 ^ 7 > 90`, so the rate is 10. -/
theorem smoothing_converges_witness :
    (run (start zeroMem) [.init 0, .register 0, .add 0 200, .tick]).ratecalc_list.Nodup ∧
      ((run (start zeroMem) [.init 0, .register 0, .add 0 200, .tick]).mem 0).rate = 100 ∧
      ratecalc_get (ticksWith 0 10 7
        (run (start zeroMem) [.init 0, .register 0, .add 0 200, .tick])) 0 = 10 :=
  have h := smoothing_converges (run (start zeroMem) [.init 0, .register 0, .add 0 200, .tick])
    (by decide) 0 (by decide) 10 (by decide) (by decide) (by decide) (by decide) (by decide)
    (by decide) (by decide) 7
  ⟨by decide, by decide, h.2.2.1.mpr (by decide)⟩

/-! ## The characters of the base32 text -/

theorem beNat_32_inj : ∀ l1 l2 : List Nat, l1.length = l2.length →
    (∀ d ∈ l1, d < 32) → (∀ d ∈ l2, d < 32) → beNat 32 l1 = beNat 32 l2 → l1 = l2 := by
  intro l1
  induction l1 using List.reverseRecOn with
  | nil =>
    intro l2 hlen _ _ _
    simp at hlen
    exact (List.length_eq_zero.mp hlen.symm).symm
  | append_singleton l1 a ih =>
    intro l2 hlen h1 h2 heq
    rcases List.eq_nil_or_concat l2 with rfl | ⟨l2, b, rfl⟩
    · simp at hlen
    · rw [List.concat_eq_append] at hlen h2 heq ⊢
      rw [beNat_concat, beNat_concat] at heq
      have ha : a < 32 := h1 a (by simp)
      have hb : b < 32 := h2 b (by simp)
      have hlen2 : l1.length = l2.length := by simpa using hlen
      have hab : a = b := by omega
      have hn : beNat 32 l1 = beNat 32 l2 := by omega
      have := ih l2 hlen2 (fun x hx => h1 x (by simp [hx])) (fun x hx => h2 x (by simp [hx])) hn
      rw [this, hab]

theorem beNat_32_digit : ∀ ds : List Nat, (∀ d ∈ ds, d < 32) → ∀ k, k < ds.length →
    ds[k]? = some (beNat 32 ds / 32 ^ (ds.length - 1 - k) % 32) := by
  intro ds
  induction ds using List.reverseRecOn with
  | nil => intro _ k hk; simp at hk
  | append_singleton ds d ih =>
    intro hds k hk
    have hd : d < 32 := hds d (by simp)
    rw [beNat_concat]
    simp only [List.length_append, List.length_singleton] at hk ⊢
    by_cases hlt : k < ds.length
    · rw [List.getElem?_append_left hlt, ih (fun x hx => hds x (by simp [hx])) k hlt]
      have he : ds.length + 1 - 1 - k = (ds.length - 1 - k) + 1 := by omega
      rw [he, pow_succ', ← Nat.div_div_eq_div_mul]
      have hq : (beNat 32 ds * 32 + d) / 32 = beNat 32 ds := by omega
      rw [hq]
    · have hk2 : k = ds.length := by omega
      subst hk2
      simp
      omega

theorem alphabetAt_mem (d : Nat) (hd : d < 32) : alphabetAt d ∈ alphabet := by
  interval_cases d <;> decide

theorem alphabetAt_inj (a b : Nat) (ha : a < 32) (hb : b < 32)
    (h : alphabetAt a = alphabetAt b) : a = b := by
  rw [← decodeDigit_alphabetAt a ha, ← decodeDigit_alphabetAt b hb, h]

theorem alphabet_index : ∀ c ∈ alphabet, ∃ d, d < 32 ∧ c = alphabetAt d := by
  decide

theorem exists_digits : ∀ s : List Char, (∀ c ∈ s, c ∈ alphabet) →
    ∃ ds : List Nat, s = ds.map alphabetAt ∧ ∀ d ∈ ds, d < 32 := by
  intro s
  induction s with
  | nil => intro _; exact ⟨[], rfl, by simp⟩
  | cons c s ih =>
    intro h
    obtain ⟨d, hd, hc⟩ := alphabet_index c (h c (by simp))
    obtain ⟨ds, hs, hds⟩ := ih (fun x hx => h x (by simp [hx]))
    refine ⟨d :: ds, by rw [List.map_cons, ← hc, ← hs], ?_⟩
    intro x hx
    rcases List.mem_cons.mp hx with e | e
    · exact e ▸ hd
    · exact hds x e

/-- What `base32_decode` writes for 39 alphabet characters: the 24 bytes of the big-endian
value of the digits without its three lowest bits. -/
theorem base32_decode_digits (ds : List Nat) (hl : ds.length = 39) (hds : ∀ d ∈ ds, d < 32) :
    ∃ bs : List Nat, base32_decode (ds.map alphabetAt) = bs ∧ bs.length = 24 ∧
      (∀ b ∈ bs, b < 256) ∧ beNat 256 bs = beNat 32 ds / 8 := by
  obtain ⟨bits1, bs1, hrun, hb8, hl1, hval1, hbs⟩ := decodeFor_spec ds [] [] 0
    ⟨by omega, by simp, by simp [beNat], by simp⟩ hds
  simp only [List.nil_append, hl] at hl1 hval1 hrun
  have hbits : bits1 = 3 := by omega
  subst hbits
  have hrun0 : decodeFor (ds.map alphabetAt) 0 0 [] = (beNat 32 ds % 2 ^ 32, 3, bs1) := by
    simpa [beNat] using hrun
  have htake : (ds.map alphabetAt).take 39 = ds.map alphabetAt := by
    rw [← hl, ← List.length_map ds alphabetAt]
    exact List.take_length _
  refine ⟨bs1, ?_, by omega, hbs, by rw [hval1]; norm_num⟩
  unfold base32_decode
  rw [htake, hrun0]

/-- C13. Output format of `base32_encode`: for every 24-byte input it writes exactly 39
characters, each from `ABCDEFGHIJKLMNOPQRSTUVWXYZ234567` (so neither `=` nor a zero byte),
and character `k` is the alphabet letter indexed by bits `5k .. 5k+4` of the 192-bit
big-endian input followed by three zero bits; the characters are those of the whole
192-bit number, the 32-bit accumulator wrapping has no effect on them. -/
theorem base32_encode_format (x : List Nat) (hlen : x.length = 24) (hx : ∀ b ∈ x, b < 256) :
    (base32_encode x).length = 39 ∧
      (∀ c ∈ base32_encode x, c ∈ alphabet ∧ c ≠ '=' ∧ c ≠ Char.ofNat 0) ∧
      ∀ k, k < 39 →
        (base32_encode x)[k]? = some (alphabetAt (beNat 256 x * 8 / 2 ^ (190 - 5 * k) % 32)) := by
  obtain ⟨ds, henc, hl, hds, hval⟩ := base32_encode_digits x hlen hx
  have hsym : ∀ c ∈ alphabet, c ≠ '=' ∧ c ≠ Char.ofNat 0 := by decide
  refine ⟨by rw [henc, List.length_map, hl], ?_, ?_⟩
  · intro c hc
    rw [henc] at hc
    obtain ⟨d, hd, rfl⟩ := List.mem_map.mp hc
    exact ⟨alphabetAt_mem d (hds d hd), hsym _ (alphabetAt_mem d (hds d hd))⟩
  · intro k hk
    have hpow : (32 : Nat) ^ (ds.length - 1 - k) = 2 ^ (190 - 5 * k) := by
      rw [show (32 : Nat) = 2 ^ 5 by norm_num, ← pow_mul]
      congr 1
      omega
    rw [henc, List.getElem?_map, beNat_32_digit ds hds k (by omega), hval, hpow]
    rfl

/-- Witness: the 24 bytes 255, 254, ..., 232; the first character is `7` (bits 11111). -/
theorem base32_encode_format_witness :
    ((List.range 24).map (fun i => 255 - i)).length = 24 ∧
      (base32_encode ((List.range 24).map (fun i => 255 - i)))[0]? = some '7' ∧
      (base32_encode ((List.range 24).map (fun i => 255 - i))).length = 39 :=
  have h := base32_encode_format ((List.range 24).map (fun i => 255 - i)) (by decide) (by decide)
  ⟨by decide, (h.2.2 0 (by decide)).trans (by decide), h.1⟩

theorem last_digit_canonical (l : Nat) (hl : l < 32) :
    l % 8 = 0 ↔ (alphabetAt l = 'A' ∨ alphabetAt l = 'I' ∨ alphabetAt l = 'Q' ∨
      alphabetAt l = 'Y') := by
  interval_cases l <;> decide

/-- Encoding what was decoded from 39 digits gives the first 38 digits again and the last
digit with its three low bits cleared. -/
theorem base32_encode_decode_digits (ds : List Nat) (l : Nat) (hlen : ds.length = 38)
    (hds : ∀ d ∈ ds, d < 32) (hl : l < 32) :
    (base32_decode ((ds ++ [l]).map alphabetAt)).length = 24 ∧
      base32_encode (base32_decode ((ds ++ [l]).map alphabetAt))
        = (ds ++ [l - l % 8]).map alphabetAt := by
  have hall : ∀ d ∈ ds ++ [l], d < 32 := by
    intro d hd
    rcases List.mem_append.mp hd with h | h
    · exact hds d h
    · simp at h; omega
  have hall2 : ∀ d ∈ ds ++ [l - l % 8], d < 32 := by
    intro d hd
    rcases List.mem_append.mp hd with h | h
    · exact hds d h
    · simp at h; omega
  obtain ⟨bs, hdec, hbl, hbs, hbv⟩ := base32_decode_digits (ds ++ [l]) (by simp [hlen]) hall
  obtain ⟨es, henc, hel, hes, hev⟩ := base32_encode_digits bs hbl hbs
  rw [hdec]
  refine ⟨hbl, ?_⟩
  rw [henc]
  congr 1
  apply beNat_32_inj es (ds ++ [l - l % 8]) (by simp [hel, hlen]) hes hall2
  rw [hev, hbv, beNat_concat, beNat_concat]
  omega

/-- C17. Reverse round trip and canonical form: for every 39-character string `s` over the
alphabet `A`-`Z`, `2`-`7`, `base32_decode` writes exactly 24 bytes, `base32_encode` of them
agrees with `s` on the first 38 characters, and it equals `s` if and only if the last
character of `s` is one of `A`, `I`, `Q`, `Y` (the letters whose three low bits are 0). -/
theorem base32_encode_decode (s : List Char) (hlen : s.length = 39)
    (hs : ∀ c ∈ s, c ∈ alphabet) :
    (base32_decode s).length = 24 ∧
      (base32_encode (base32_decode s)).take 38 = s.take 38 ∧
      (base32_encode (base32_decode s) = s ↔
        (s[38]? = some 'A' ∨ s[38]? = some 'I' ∨ s[38]? = some 'Q' ∨ s[38]? = some 'Y')) := by
  obtain ⟨ds0, rfl, hds0⟩ := exists_digits s hs
  rw [List.length_map] at hlen
  rcases List.eq_nil_or_concat ds0 with rfl | ⟨ds, l, rfl⟩
  · simp at hlen
  rw [List.concat_eq_append] at hlen hds0 ⊢
  have hl38 : ds.length = 38 := by simpa using hlen
  have hl : l < 32 := hds0 l (by simp)
  have hds : ∀ d ∈ ds, d < 32 := fun d hd => hds0 d (by simp [hd])
  obtain ⟨h24, henc⟩ := base32_encode_decode_digits ds l hl38 hds hl
  have hlast : ((ds ++ [l]).map alphabetAt)[38]? = some (alphabetAt l) := by
    rw [List.getElem?_map, ← hl38, List.getElem?_append_right (le_refl _)]
    simp
  refine ⟨h24, ?_, ?_⟩
  · rw [henc, List.map_append, List.map_append, ← hl38, ← List.length_map ds alphabetAt,
      List.take_left, List.take_left]
  · rw [henc, hlast]
    simp only [Option.some.injEq]
    rw [← last_digit_canonical l hl]
    constructor
    · intro h
      have h2 := List.append_cancel_left (by simpa [List.map_append] using h :
        ds.map alphabetAt ++ [alphabetAt (l - l % 8)] = ds.map alphabetAt ++ [alphabetAt l])
      have h3 : alphabetAt (l - l % 8) = alphabetAt l := by simpa using h2
      have h4 := alphabetAt_inj _ _ (by omega) hl h3
      omega
    · intro h
      rw [h]
      rfl

/-- Witness: 38 times `A` and a last character `B` (low bits 001), which does not come
back: the text read back ends in `A`. -/
theorem base32_encode_decode_witness :
    (List.replicate 38 'A' ++ ['B']).length = 39 ∧
      (∀ c ∈ List.replicate 38 'A' ++ ['B'], c ∈ alphabet) ∧
      base32_encode (base32_decode (List.replicate 38 'A' ++ ['B']))
        ≠ List.replicate 38 'A' ++ ['B'] ∧
      (base32_decode (List.replicate 38 'A' ++ ['B'])).length = 24 :=
  have h := base32_encode_decode (List.replicate 38 'A' ++ ['B']) (by decide) (by decide)
  ⟨by decide, by decide, fun e => absurd (h.2.2.mp e) (by decide), h.1⟩

/-! ## Case-insensitive search -/

theorem g_strncasecmp_zero : ∀ (n : Nat) (s1 s2 : List Nat), n ≤ s1.length → n ≤ s2.length →
    (g_strncasecmp s1 s2 n = 0 ↔ (s1.take n).map asciiLower = (s2.take n).map asciiLower) := by
  intro n
  induction n with
  | zero => intro s1 s2 _ _; simp [g_strncasecmp]
  | succ n ih =>
    intro s1 s2 h1 h2
    cases s1 with
    | nil => simp at h1
    | cons c1 s1 =>
      cases s2 with
      | nil => simp at h2
      | cons c2 s2 =>
        simp only [List.length_cons, Nat.add_le_add_iff_right] at h1 h2
        simp only [g_strncasecmp, List.take_succ_cons, List.map_cons, List.cons.injEq]
        by_cases hc : asciiLower c1 = asciiLower c2
        · simp only [hc, ne_eq, not_true_eq_false, if_false, true_and]
          exact ih s1 s2 h1 h2
        · simp only [ne_eq, hc, not_false_eq_true, if_true, false_and, iff_false]
          omega

theorem occursAt_of_cmp (haystack needle : List Nat) (off : Nat)
    (h : off + needle.length ≤ haystack.length) :
    (g_strncasecmp (haystack.drop off) needle needle.length = 0 ↔
      occursAt haystack needle off = true) := by
  rw [g_strncasecmp_zero needle.length (haystack.drop off) needle
    (by rw [List.length_drop]; omega) (le_refl _)]
  simp [occursAt, h]

theorem occursAt_beyond (haystack needle : List Nat) (i : Nat)
    (h : haystack.length < i + needle.length) : occursAt haystack needle i = false := by
  simp [occursAt]
  intro h2
  omega

theorem casestrLoop_spec (haystack needle : List Nat) (hh : haystack.length < 2 ^ 64)
    (hn : needle.length < 2 ^ 32) :
    ∀ (fuel off : Nat), off ≤ haystack.length → haystack.length - off + 1 ≤ fuel →
    (∀ j, j < off → occursAt haystack needle j = false) →
    ∃ r, casestrLoop fuel haystack off (haystack.length - off) needle needle.length = some r ∧
      r ≠ .fault ∧ (r = .null → ∀ i, occursAt haystack needle i = false) ∧
      (∀ i, r = .ptr i → occursAt haystack needle i = true ∧
        ∀ j, j < i → occursAt haystack needle j = false) := by
  have hcount : needle.length % 2 ^ 32 = needle.length := Nat.mod_eq_of_lt hn
  intro fuel
  induction fuel with
  | zero => intro off _ hf _; omega
  | succ fuel ih =>
    intro off hoff hf hbefore
    by_cases hge : haystack.length - off ≥ needle.length
    · have hfit : off + needle.length ≤ haystack.length := by omega
      have hnf : ¬ (needle.length ≠ 0 ∧ haystack.length < off) := by omega
      by_cases hcmp : g_strncasecmp (haystack.drop off) needle needle.length = 0
      · refine ⟨.ptr off, ?_, by simp, by simp, ?_⟩
        · rw [casestrLoop, hcount, if_pos hge, if_neg hnf, if_pos hcmp]
        · intro i hi
          injection hi with hi
          subst hi
          exact ⟨(occursAt_of_cmp haystack needle off hfit).mp hcmp, hbefore⟩
      · have hno : occursAt haystack needle off = false := by
          cases ho : occursAt haystack needle off with
          | false => rfl
          | true => exact absurd ((occursAt_of_cmp haystack needle off hfit).mpr ho) hcmp
        have hpos : 1 ≤ haystack.length - off := by
          by_contra hz
          have hn0 : needle.length = 0 := by omega
          rw [hn0] at hcmp
          exact hcmp (by simp [g_strncasecmp])
        have hdec : (haystack.length - off + 2 ^ 64 - 1) % 2 ^ 64
            = haystack.length - (off + 1) := by omega
        obtain ⟨r, hr, hrest⟩ := ih (off + 1) (by omega) (by omega) (by
          intro j hj
          rcases Nat.lt_succ_iff_lt_or_eq.mp hj with h | h
          · exact hbefore j h
          · exact h ▸ hno)
        refine ⟨r, ?_, hrest⟩
        rw [casestrLoop, hcount, if_pos hge, if_neg hnf, if_neg hcmp, hdec]
        exact hr
    · refine ⟨.null, ?_, by simp, ?_, by simp⟩
      · rw [casestrLoop, if_neg hge]
      · intro _ i
        by_cases hi : i < off
        · exact hbefore i hi
        · exact occursAt_beyond haystack needle i (by omega)

/-- With a needle whose length is a positive multiple of `2 ^ 32` the count that reaches
`g_strncasecmp` is 0, so the first comparison succeeds whatever the bytes are: a haystack
of `n` bytes `b` and a needle of `n` bytes `a` give the start of the haystack, although
the needle occurs nowhere. -/
theorem str_casestr_count_truncated (n : Nat) (hpos : 0 < n) (hmod : n % 2 ^ 32 = 0) :
    str_casestr (List.replicate n 98) (List.replicate n 97) = some (.ptr 0) ∧
      ∀ i, occursAt (List.replicate n 98) (List.replicate n 97) i = false := by
  constructor
  · unfold str_casestr
    rw [casestrLoop]
    simp only [List.length_replicate]
    rw [hmod, if_pos (le_refl n), if_neg (fun h => h.1 rfl)]
    rw [g_strncasecmp, if_pos rfl]
  · intro i
    rcases Nat.eq_zero_or_pos i with h0 | hi
    · subst h0
      obtain ⟨m, rfl⟩ : ∃ m, n = m + 1 := ⟨n - 1, by omega⟩
      simp only [occursAt, List.length_replicate, List.drop_zero, List.take_replicate,
        min_self, List.map_replicate, List.replicate_succ, List.cons.injEq]
      have h : asciiLower 98 ≠ asciiLower 97 := by decide
      simp [h]
    · exact occursAt_beyond _ _ i (by simp only [List.length_replicate]; omega)

/-- Counterexample to C14 as stated: for a haystack of `2 ^ 32` bytes `b` and a needle of
`2 ^ 32` bytes `a`, `str_casestr` returns `haystack` itself, not `NULL`, although the
needle occurs at no offset of the haystack. -/
theorem str_casestr_long_needle :
    str_casestr (List.replicate (2 ^ 32) 98) (List.replicate (2 ^ 32) 97) = some (.ptr 0) ∧
      ∀ i, occursAt (List.replicate (2 ^ 32) 98) (List.replicate (2 ^ 32) 97) i = false :=
  str_casestr_count_truncated (2 ^ 32) (Nat.two_pow_pos 32) (Nat.mod_self (2 ^ 32))

/-- C14, amended. `str_casestr` is a case-insensitive substring search for needles shorter
than `2 ^ 32` bytes. For all NUL-terminated strings `haystack` (shorter than `2 ^ 64`
bytes) and `needle` (shorter than `2 ^ 32` bytes, so that its length passes unchanged
into the `guint` count of `g_strncasecmp`), the comparison being ASCII case-insensitive
equality of `strlen(needle)` bytes: the call returns, without ever reading behind the end
of `haystack`; it returns `NULL` if and only if `needle` occurs nowhere in `haystack`,
and otherwise the pointer to the leftmost occurrence, which is `haystack` itself when
`needle` is empty. -/
theorem str_casestr_spec (haystack needle : List Nat) (hh : haystack.length < 2 ^ 64)
    (hn : needle.length < 2 ^ 32) :
    ∃ r, str_casestr haystack needle = some r ∧ r ≠ .fault ∧
      (r = .null ↔ ∀ i, occursAt haystack needle i = false) ∧
      (∀ i, r = .ptr i → occursAt haystack needle i = true ∧
        ∀ j, j < i → occursAt haystack needle j = false) ∧
      (needle = [] → r = .ptr 0) := by
  obtain ⟨r, hr, hnf, hnull, hptr⟩ := casestrLoop_spec haystack needle hh hn
    (haystack.length + 1) 0 (Nat.zero_le _) (by omega) (by intro j hj; omega)
  have hrun : str_casestr haystack needle = some r := by
    unfold str_casestr
    simpa using hr
  refine ⟨r, hrun, hnf, ⟨hnull, ?_⟩, hptr, ?_⟩
  · intro hnone
    cases r with
    | null => rfl
    | fault => exact absurd rfl hnf
    | ptr i =>
      have := (hptr i rfl).1
      rw [hnone i] at this
      exact absurd this (by decide)
  · intro hempty
    subst hempty
    have h0 : str_casestr haystack [] = some (.ptr 0) := by
      simp [str_casestr, casestrLoop, g_strncasecmp]
    rw [h0] at hrun
    injection hrun with hrun
    exact hrun.symm

/-- Witness: `LLO` is found in `Hello` at offset 2, the leftmost (and only) occurrence. -/
theorem str_casestr_spec_witness :
    [72, 101, 108, 108, 111].length < 2 ^ 64 ∧ [76, 76, 79].length < 2 ^ 32 ∧
      str_casestr [72, 101, 108, 108, 111] [76, 76, 79] = some (.ptr 2) ∧
      ∃ r, str_casestr [72, 101, 108, 108, 111] [76, 76, 79] = some r ∧ r ≠ .fault :=
  have h := str_casestr_spec [72, 101, 108, 108, 111] [76, 76, 79] (by decide) (by decide)
  ⟨by decide, by decide, by decide, h.elim fun r hr => ⟨r, hr.1, hr.2.1⟩⟩

/-! ## Column offsets -/

/-- C15, at the failing inputs. With column limit 1, `str_offset_from_columns` on the single
wide character U+4E16 (3 bytes, 2 columns) returns 3, the length of the string: the
characters before the returned offset occupy 2 columns, more than the limit. On `a`
followed by the zero-width U+0301 it returns 1, although the character at that offset
adds no column: with it the string still occupies 1 column. -/
theorem str_offset_from_columns_overshoots :
    str_offset_from_columns sampleWide sampleZeroWidth [Char.ofNat 0x4E16] 1 = 3 ∧
      charsBefore [Char.ofNat 0x4E16] 3 = [Char.ofNat 0x4E16] ∧
      str_columns sampleWide sampleZeroWidth (charsBefore [Char.ofNat 0x4E16] 3) = 2 ∧
      str_offset_from_columns sampleWide sampleZeroWidth ['a', Char.ofNat 0x0301] 1 = 1 ∧
      charsBefore ['a', Char.ofNat 0x0301] 1 = ['a'] ∧
      str_columns sampleWide sampleZeroWidth ['a', Char.ofNat 0x0301] = 1 := by
  decide

/-! ## Splitting a two-argument string -/

theorem skipSpaces_replicate : ∀ (k i : Nat) (rest : List Char), rest.head? ≠ some ' ' →
    skipSpaces (List.replicate k ' ' ++ rest) i = i + k := by
  intro k
  induction k with
  | zero =>
    intro i rest h
    cases rest with
    | nil => simp [skipSpaces]
    | cons x xs =>
      have hx : x ≠ ' ' := by simpa using h
      simp [skipSpaces, hx]
  | succ k ih =>
    intro i rest h
    rw [List.replicate_succ, List.cons_append, skipSpaces, if_pos rfl, ih (i + 1) rest h]
    omega

theorem strchrFrom_none : ∀ (v : List Char) (i : Nat), (∀ c ∈ v, c ≠ ' ') →
    strchrFrom v i ' ' = none := by
  intro v
  induction v with
  | nil => intro i _; rfl
  | cons x xs ih =>
    intro i h
    have hx : x ≠ ' ' := h x (by simp)
    rw [strchrFrom, if_neg hx]
    split
    · rfl
    · exact ih (i + 1) (fun c hc => h c (by simp [hc]))

theorem strchrFrom_some : ∀ (v : List Char) (i : Nat) (rest : List Char),
    (∀ c ∈ v, c ≠ ' ' ∧ c ≠ Char.ofNat 0) →
    strchrFrom (v ++ ' ' :: rest) i ' ' = some (i + v.length) := by
  intro v
  induction v with
  | nil => intro i rest _; simp [strchrFrom]
  | cons x xs ih =>
    intro i rest h
    have hx := h x (by simp)
    rw [List.cons_append, strchrFrom, if_neg hx.1, if_neg hx.2,
      ih (i + 1) rest (fun c hc => h c (by simp [hc]))]
    simp only [List.length_cons, Option.some.injEq]
    omega

theorem set_at_length : ∀ (a : List Char) (x y : Char) (b : List Char),
    (a ++ x :: b).set a.length y = a ++ y :: b := by
  intro a
  induction a with
  | nil => intro x y b; rfl
  | cons c a ih => intro x y b; simp [ih]

theorem takeWhile_to_nul : ∀ (w b : List Char), (∀ c ∈ w, c ≠ Char.ofNat 0) →
    (w ++ Char.ofNat 0 :: b).takeWhile (fun c => c ≠ Char.ofNat 0) = w := by
  intro w
  induction w with
  | nil => intro b _; simp
  | cons x xs ih =>
    intro b h
    have hx : x ≠ Char.ofNat 0 := h x (by simp)
    rw [List.cons_append, List.takeWhile_cons]
    simp only [ne_eq, hx, not_false_eq_true, decide_True, if_true]
    rw [ih b (fun c hc => h c (by simp [hc]))]

theorem takeWhile_all : ∀ (w : List Char), (∀ c ∈ w, c ≠ Char.ofNat 0) →
    w.takeWhile (fun c => c ≠ Char.ofNat 0) = w := by
  intro w
  induction w with
  | nil => intro _; rfl
  | cons x xs ih =>
    intro h
    have hx : x ≠ Char.ofNat 0 := h x (by simp)
    rw [List.takeWhile_cons]
    simp only [ne_eq, hx, not_false_eq_true, decide_True, if_true]
    rw [ih (fun c hc => h c (by simp [hc]))]

theorem getD_last_of_word (s w0 : List Char) (z : Char) (x : List Char) (d : Char) :
    (s ++ (w0 ++ [z]) ++ x).getD (s.length + (w0 ++ [z]).length - 1) d = z := by
  have e : s ++ (w0 ++ [z]) ++ x = (s ++ w0) ++ z :: x := by simp
  have hl : s.length + (w0 ++ [z]).length - 1 = (s ++ w0).length := by simp
  rw [e, hl, List.getD_eq_getElem?_getD, List.getElem?_append_right (le_refl _)]
  simp

/-- The run of `str_arg2_split` on leading spaces, a plain word, a space and a rest. -/
theorem arg2_with_rest (unq : List Char → Option (List Char)) (k : Nat) (w : List Char)
    (hw : w ≠ []) (hsp : ∀ c ∈ w, c ≠ ' ' ∧ c ≠ Char.ofNat 0)
    (hbs : ∀ c ∈ w, c ≠ '\\') (hunq : unq w = some w) (x : List Char) :
    str_arg2_split unq (List.replicate k ' ' ++ w ++ ' ' :: x) =
      some { first := some w,
             second := some (skipSpaces x (k + w.length + 1)),
             str := List.replicate k ' ' ++ w ++ ' ' :: x } := by
  obtain ⟨a, w1, rfl⟩ := List.exists_cons_of_ne_nil hw
  rcases List.eq_nil_or_concat (a :: w1) with h | ⟨w0, z, hz⟩
  · exact absurd h (by simp)
  rw [List.concat_eq_append] at hz
  have hstart : skipSpaces (List.replicate k ' ' ++ (a :: w1) ++ ' ' :: x) 0 = k := by
    rw [List.append_assoc, skipSpaces_replicate k 0 _ (by
      have := (hsp a (by simp)).1
      simpa using this)]
    omega
  have hdrop : (List.replicate k ' ' ++ (a :: w1) ++ ' ' :: x).drop (k + 1) = w1 ++ ' ' :: x := by
    have e : List.replicate k ' ' ++ (a :: w1) ++ ' ' :: x
        = (List.replicate k ' ' ++ [a]) ++ (w1 ++ ' ' :: x) := by simp
    rw [e]
    exact List.drop_left' (by simp)
  have hchr : strchr (List.replicate k ' ' ++ (a :: w1) ++ ' ' :: x) (k + 1) ' '
      = some (k + (a :: w1).length) := by
    unfold strchr
    rw [hdrop, strchrFrom_some w1 (k + 1) x (fun c hc => hsp c (by simp [hc]))]
    simp only [List.length_cons, Option.some.injEq]
    omega
  have hlast : (List.replicate k ' ' ++ (a :: w1) ++ ' ' :: x).getD
      (k + (a :: w1).length - 1) ' ' ≠ '\\' := by
    have hg := getD_last_of_word (List.replicate k ' ') w0 z (' ' :: x) ' '
    rw [← hz, List.length_replicate] at hg
    rw [hg]
    exact hbs z (by rw [hz]; simp)
  have hlen : (List.replicate k ' ' ++ (a :: w1)).length = k + (a :: w1).length := by simp
  have hset1 : (List.replicate k ' ' ++ (a :: w1) ++ ' ' :: x).set (k + (a :: w1).length)
      (Char.ofNat 0) = List.replicate k ' ' ++ (a :: w1) ++ Char.ofNat 0 :: x := by
    rw [← hlen]
    exact set_at_length _ _ _ _
  have hset2 : (List.replicate k ' ' ++ (a :: w1) ++ Char.ofNat 0 :: x).set
      (k + (a :: w1).length) ' ' = List.replicate k ' ' ++ (a :: w1) ++ ' ' :: x := by
    rw [← hlen]
    exact set_at_length _ _ _ _
  have hcstr : cstr (List.replicate k ' ' ++ (a :: w1) ++ Char.ofNat 0 :: x) k = a :: w1 := by
    unfold cstr
    rw [List.append_assoc, List.drop_left' (by simp)]
    exact takeWhile_to_nul (a :: w1) x (fun c hc => (hsp c hc).2)
  have hloop : arg2Loop unq k ((List.replicate k ' ' ++ (a :: w1) ++ ' ' :: x).length + 1)
      (List.replicate k ' ' ++ (a :: w1) ++ ' ' :: x) k none
      = some (List.replicate k ' ' ++ (a :: w1) ++ ' ' :: x, some (k + (a :: w1).length),
          some (a :: w1)) := by
    rw [arg2Loop, hchr]
    simp only [hlast, if_false, hset1, hcstr, hunq, hset2, Option.isNone_some]
    rfl
  have hne : k + (a :: w1).length ≠ k := by simp
  have hdrop2 : (List.replicate k ' ' ++ (a :: w1) ++ ' ' :: x).drop (k + (a :: w1).length + 1)
      = x := by
    have e : List.replicate k ' ' ++ (a :: w1) ++ ' ' :: x
        = (List.replicate k ' ' ++ (a :: w1) ++ [' ']) ++ x := by simp
    rw [e]
    exact List.drop_left' (by simp; omega)
  unfold str_arg2_split
  simp only [hstart, hloop, hne, ne_eq, not_false_eq_true, if_true, hdrop2]

/-- The run of `str_arg2_split` on leading spaces and a plain word alone. -/
theorem arg2_word_only (unq : List Char → Option (List Char)) (k : Nat) (w : List Char)
    (hw : w ≠ []) (hsp : ∀ c ∈ w, c ≠ ' ' ∧ c ≠ Char.ofNat 0) (hunq : unq w = some w) :
    str_arg2_split unq (List.replicate k ' ' ++ w) =
      some { first := some w, second := none, str := List.replicate k ' ' ++ w } := by
  obtain ⟨a, w1, rfl⟩ := List.exists_cons_of_ne_nil hw
  have hstart : skipSpaces (List.replicate k ' ' ++ (a :: w1)) 0 = k := by
    rw [skipSpaces_replicate k 0 _ (by
      have := (hsp a (by simp)).1
      simpa using this)]
    omega
  have hdrop : (List.replicate k ' ' ++ (a :: w1)).drop (k + 1) = w1 := by
    have e : List.replicate k ' ' ++ (a :: w1) = (List.replicate k ' ' ++ [a]) ++ w1 := by simp
    rw [e]
    exact List.drop_left' (by simp)
  have hchr : strchr (List.replicate k ' ' ++ (a :: w1)) (k + 1) ' ' = none := by
    unfold strchr
    rw [hdrop]
    exact strchrFrom_none w1 (k + 1) (fun c hc => (hsp c (by simp [hc])).1)
  have hcstr : cstr (List.replicate k ' ' ++ (a :: w1)) k = a :: w1 := by
    unfold cstr
    rw [List.drop_left' (by simp)]
    exact takeWhile_all (a :: w1) (fun c hc => (hsp c hc).2)
  have hloop : arg2Loop unq k ((List.replicate k ' ' ++ (a :: w1)).length + 1)
      (List.replicate k ' ' ++ (a :: w1)) k none
      = some (List.replicate k ' ' ++ (a :: w1), none, some (a :: w1)) := by
    rw [arg2Loop, hchr]
    simp only [hcstr, hunq]
  unfold str_arg2_split
  simp only [hstart, hloop]

/-- C16. `str_arg2_split` splits into two arguments. With `g_shell_unquote` the identity
on strings without quote and backslash: for a string made of `k` spaces, a non-empty word
`w` without space, quote, backslash (or NUL), and then either nothing, or `m + 1` spaces
and a rest `r` not starting with a space (`r` may be empty), the call sets `*first` to
`w`; it sets `*second` to `NULL` in the first case, and in the second to the offset of
`str` where `r` starts, `r` being what `str` holds from there on; `str` holds the same
bytes after the call as before. -/
theorem str_arg2_split_spec (unq : List Char → Option (List Char))
    (hunq : ∀ v : List Char, (∀ c ∈ v, c ≠ '\'' ∧ c ≠ '"' ∧ c ≠ '\\') → unq v = some v)
    (k : Nat) (w : List Char) (hw : w ≠ [])
    (hwc : ∀ c ∈ w, c ≠ ' ' ∧ c ≠ '\'' ∧ c ≠ '"' ∧ c ≠ '\\' ∧ c ≠ Char.ofNat 0) :
    str_arg2_split unq (List.replicate k ' ' ++ w) =
        some { first := some w, second := none, str := List.replicate k ' ' ++ w } ∧
    ∀ (m : Nat) (r : List Char), r.head? ≠ some ' ' →
      str_arg2_split unq (List.replicate k ' ' ++ w ++ List.replicate (m + 1) ' ' ++ r) =
          some { first := some w, second := some (k + w.length + (m + 1)),
                 str := List.replicate k ' ' ++ w ++ List.replicate (m + 1) ' ' ++ r } ∧
        (List.replicate k ' ' ++ w ++ List.replicate (m + 1) ' ' ++ r).drop
          (k + w.length + (m + 1)) = r := by
  have hsp : ∀ c ∈ w, c ≠ ' ' ∧ c ≠ Char.ofNat 0 := fun c hc => ⟨(hwc c hc).1, (hwc c hc).2.2.2.2⟩
  have hbs : ∀ c ∈ w, c ≠ '\\' := fun c hc => (hwc c hc).2.2.2.1
  have hid : unq w = some w :=
    hunq w (fun c hc => ⟨(hwc c hc).2.1, (hwc c hc).2.2.1, (hwc c hc).2.2.2.1⟩)
  refine ⟨arg2_word_only unq k w hw hsp hid, ?_⟩
  intro m r hr
  have e : List.replicate k ' ' ++ w ++ List.replicate (m + 1) ' ' ++ r
      = List.replicate k ' ' ++ w ++ ' ' :: (List.replicate m ' ' ++ r) := by
    rw [List.replicate_succ]
    simp
  constructor
  · rw [e, arg2_with_rest unq k w hw hsp hbs hid, skipSpaces_replicate m _ r hr]
    simp only [Arg2.mk.injEq, Option.some.injEq, true_and, and_true]
    omega
  · exact List.drop_left' (by simp; omega)

/-- Witness: two leading spaces, the word `foo`, three spaces, the rest `bar baz `. -/
theorem str_arg2_split_spec_witness :
    (∀ v : List Char, (∀ c ∈ v, c ≠ '\'' ∧ c ≠ '"' ∧ c ≠ '\\') → unquotePlain v = some v) ∧
      str_arg2_split unquotePlain
        (List.replicate 2 ' ' ++ ['f', 'o', 'o'] ++ List.replicate (2 + 1) ' ' ++
          ['b', 'a', 'r', ' ', 'b', 'a', 'z', ' ']) =
        some { first := some ['f', 'o', 'o'], second := some (2 + ['f', 'o', 'o'].length + (2 + 1)),
               str := List.replicate 2 ' ' ++ ['f', 'o', 'o'] ++ List.replicate (2 + 1) ' ' ++
                 ['b', 'a', 'r', ' ', 'b', 'a', 'z', ' '] } :=
  have hu : ∀ v : List Char, (∀ c ∈ v, c ≠ '\'' ∧ c ≠ '"' ∧ c ≠ '\\') → unquotePlain v = some v := by
    intro v hv
    unfold unquotePlain
    rw [if_neg]
    simp only [List.any_eq_true, Bool.or_eq_true, decide_eq_true_eq, not_exists, not_and, not_or]
    intro c hc
    exact ⟨⟨(hv c hc).1, (hv c hc).2.1⟩, (hv c hc).2.2⟩
  ⟨hu, ((str_arg2_split_spec unquotePlain hu 2 ['f', 'o', 'o'] (by decide) (by decide)).2 2
    ['b', 'a', 'r', ' ', 'b', 'a', 'z', ' '] (by decide)).1⟩

end Ncdc
